import Mathlib

/-!
Verification of the Jackify Compatibility-Layer Integration Engine.

Shallow embedding of the engine's core operations:
  * `src/jackify/backend/handlers/vdf_handler.py` (protected-file policy, load/save),
  * `src/jackify/backend/services/native_steam_service.py` (shortcut registrar,
    compatibility-tool mapping surgery),
  * `src/jackify/backend/handlers/wine_utils.py` (path translator, runtime resolver),
  * `src/jackify/backend/handlers/subprocess_utils.py` (process supervisor).

Strings are modelled as `List Char`, file bytes as `List Nat`, the file system
as an association list from path to bytes.  Python `dict`s (which preserve
insertion order) are modelled as association lists.
-/

namespace Jackify

/-- Characters of a string literal. -/
def chars (s : String) : List Char := s.data

/-- The `\x7b` character (opening brace). -/
def obrace : Char := Char.ofNat 123

/-- The `\x7d` character (closing brace). -/
def cbrace : Char := Char.ofNat 125

/-- Python `needle in hay` substring test. -/
def containsSub (needle hay : List Char) : Bool :=
  hay.tails.any fun t => needle.isPrefixOf t

/-- Decimal rendering of a natural number (Python `str(n)` for `n ≥ 0`). -/
def natToDecAux : Nat → Nat → List Char → List Char
  | 0, _, acc => acc
  | fuel+1, n, acc =>
    let d := Char.ofNat (48 + n % 10)
    if n < 10 then d :: acc
    else natToDecAux fuel (n / 10) (d :: acc)

/-- Decimal rendering of a natural number. -/
def natToDec (n : Nat) : List Char := natToDecAux (n+1) n []

/-- `os.path.basename` for POSIX paths: the part after the last `/`. -/
def basename (p : List Char) : List Char :=
  p.foldl (fun acc c => if c = '/' then [] else acc ++ [c]) []

/-! ## Structured Store Codec: protected-file policy
    (`VDFHandler` in `src/jackify/backend/handlers/vdf_handler.py`) -/

/-- `PROTECTED_VDF_FILES` from `vdf_handler.py`. -/
def PROTECTED_VDF_FILES : List (List Char) :=
  [chars "libraryfolders.vdf", chars "config.vdf", chars "loginusers.vdf",
   chars "registry.vdf", chars "localconfig.vdf", chars "remotecache.vdf",
   chars "sharedconfig.vdf", chars "appinfo.vdf", chars "packageinfo.vdf",
   chars "appmanifest_*.acf"]

/-- `CRITICAL_STEAM_DIRS` from `vdf_handler.py`. -/
def CRITICAL_STEAM_DIRS : List (List Char) :=
  [chars "appcache", chars "controller_base", chars "config", chars "logs",
   chars "package", chars "public", chars "resource", chars "steam",
   chars "steamapps", chars "tenfoot"]

/-- `VDFHandler.is_protected_file`.  Note the special exception: any path whose
basename is `shortcuts.vdf` is treated as unprotected before the directory
checks run. -/
def is_protected_file (file_path : List Char) : Bool :=
  let file_name := basename file_path
  if file_name = chars "shortcuts.vdf" then false
  else if file_name ∈ PROTECTED_VDF_FILES then true
  else if PROTECTED_VDF_FILES.any
      (fun pat => pat.contains '*' && containsSub (pat.filter (· ≠ '*')) file_name) then true
  else if CRITICAL_STEAM_DIRS.any
      (fun d => containsSub ('/' :: (d ++ ['/'])) file_path ||
                containsSub ('\\' :: (d ++ ['\\'])) file_path) then true
  else false

/-- File system model: association list from path to byte content. -/
def FS := List (List Char × List Nat)

instance : DecidableEq FS := by unfold FS; infer_instance

/-- Content of a file, `none` when absent. -/
def FS.get (fs : FS) (p : List Char) : Option (List Nat) :=
  (fs.find? (fun kv => kv.1 = p)).map (·.2)

/-- Write (create or overwrite) a file. -/
def FS.set (fs : FS) (p : List Char) (c : List Nat) : FS :=
  (p, c) :: fs.filter (fun kv => ¬ (kv.1 = p))

/-- Result of `VDFHandler.save`.  The two `err` constructors are the two
`ValueError`s raised by the first and second line of defense; `okFalse` is the
`return False` path of the final re-check; `okTrue` is a successful write. -/
inductive SaveResult
  | errProtected
  | errNotPermitted
  | okFalse
  | okTrue
  deriving DecidableEq, Repr

/-- `VDFHandler.save` (paths are modelled as already `os.path.normpath`-normal).
`ts` is the mtime used for the timestamped backup name, `ser` the serialized
tree.  Backup copying is modelled as total (no I/O failure). -/
def save (ts : Nat) (fs : FS) (path : List Char) (ser : List Nat) : SaveResult × FS :=
  -- FIRST LINE OF DEFENSE: protected-file policy
  if is_protected_file path then (.errProtected, fs)
  -- SECOND LINE OF DEFENSE: only shortcuts.vdf may be written
  else if ¬ (basename path = chars "shortcuts.vdf") then (.errNotPermitted, fs)
  else
    -- THIRD LINE OF DEFENSE: backups before saving
    match fs.get path with
    | some old =>
      let fs1 := fs.set (path ++ chars "." ++ natToDec ts ++ chars ".bak") old
      let fs2 := if (fs1.get (path ++ chars ".bak")).isSome then fs1
                 else fs1.set (path ++ chars ".bak") old
      -- final re-check of the filename immediately before the write call
      if ¬ (basename path = chars "shortcuts.vdf") then (.okFalse, fs2)
      else (.okTrue, fs2.set path ser)
    | none =>
      if ¬ (basename path = chars "shortcuts.vdf") then (.okFalse, fs)
      else (.okTrue, fs.set path ser)

end Jackify

namespace Jackify

/-! ## Binary keyed-tree codec

The repository delegates encoding/decoding to the external `vdf` library,
which is not part of `src/`.  The codec below is modelled from the spec's
description of the store: a binary keyed-tree format of nested maps whose
leaves are strings and 32-bit integers (§6 "a binary keyed-tree format (for
the shortcut store)"). -/

mutual

/-- Modelled from the spec: a keyed tree of the binary store (the `vdf`
library's parse result) — nested maps, string leaves, 32-bit integer leaves.
Keys and string payloads are byte strings. -/
inductive BT
  | leafStr (s : List Nat)
  | leafInt (n : Nat)
  | node (kvs : BKvs)

/-- Modelled from the spec: the ordered key/value entries of one map level. -/
inductive BKvs
  | nil
  | cons (k : List Nat) (v : BT) (rest : BKvs)

end

/-- Little-endian 32-bit encoding. -/
def le32 (n : Nat) : List Nat :=
  [n % 256, n / 256 % 256, n / 65536 % 256, n / 16777216 % 256]

mutual

/-- Modelled from the spec: serialize one entry — type byte, NUL-terminated
key, then the payload (`vdf.binary_dumps` is not in `src/`). -/
def encKV (k : List Nat) (v : BT) : List Nat :=
  match v with
  | .leafStr s => 1 :: (k ++ [0] ++ s ++ [0])
  | .leafInt n => 2 :: (k ++ [0] ++ le32 n)
  | .node kvs => 0 :: (k ++ [0] ++ encEnts kvs ++ [8])
termination_by structural v

/-- Modelled from the spec: serialize the entries of one map level. -/
def encEnts : BKvs → List Nat
  | .nil => []
  | .cons k v rest => encKV k v ++ encEnts rest
termination_by structural kvs => kvs

end

/-- Modelled from the spec: a whole binary store file is the root map's
entries followed by the end marker. -/
def encFile (kvs : BKvs) : List Nat := encEnts kvs ++ [8]

/-- Read bytes up to (and consuming) the next NUL. -/
def readNull : List Nat → Option (List Nat × List Nat)
  | [] => none
  | b :: rest =>
    if b = 0 then some ([], rest)
    else (readNull rest).map (fun p => (b :: p.1, p.2))

/-- Read a little-endian 32-bit integer (each byte must be a byte). -/
def readLe32 : List Nat → Option (Nat × List Nat)
  | b0 :: b1 :: b2 :: b3 :: rest =>
    if b0 < 256 ∧ b1 < 256 ∧ b2 < 256 ∧ b3 < 256 then
      some (b0 + 256 * b1 + 65536 * b2 + 16777216 * b3, rest)
    else none
  | _ => none

/-- Modelled from the spec: parse the entries of one map level, stopping at
the end marker (`vdf.binary_loads` is not in `src/`).  `fuel` bounds the
recursion; any fuel at least the input length suffices. -/
def parseEnts : Nat → List Nat → Option (BKvs × List Nat)
  | 0, _ => none
  | fuel+1, b =>
    match b with
    | [] => none
    | t :: rest =>
      if t = 8 then some (.nil, rest)
      else if t = 0 then
        match readNull rest with
        | none => none
        | some (k, r1) =>
          match parseEnts fuel r1 with
          | none => none
          | some (inner, r2) =>
            match parseEnts fuel r2 with
            | none => none
            | some (sib, r3) => some (.cons k (.node inner) sib, r3)
      else if t = 1 then
        match readNull rest with
        | none => none
        | some (k, r1) =>
          match readNull r1 with
          | none => none
          | some (s, r2) =>
            match parseEnts fuel r2 with
            | none => none
            | some (sib, r3) => some (.cons k (.leafStr s) sib, r3)
      else if t = 2 then
        match readNull rest with
        | none => none
        | some (k, r1) =>
          match readLe32 r1 with
          | none => none
          | some (n, r2) =>
            match parseEnts fuel r2 with
            | none => none
            | some (sib, r3) => some (.cons k (.leafInt n) sib, r3)
      else none

/-- Modelled from the spec: parse a whole binary store file; fails unless the
input is consumed exactly. -/
def parseFile (b : List Nat) : Option BKvs :=
  match parseEnts (b.length + 1) b with
  | some (kvs, []) => some kvs
  | _ => none

/-! ## Codec round-trip lemmas -/

theorem readNull_sound : ∀ b s r, readNull b = some (s, r) → b = s ++ 0 :: r := by
  intro b
  induction b with
  | nil => intro s r h; simp [readNull] at h
  | cons x xs ih =>
    intro s r h
    by_cases hx : x = 0
    · subst hx
      simp [readNull] at h
      simp [← h.1, ← h.2]
    · simp only [readNull, hx, if_false, Option.map_eq_some'] at h
      obtain ⟨⟨s', r'⟩, hp, hval⟩ := h
      have := ih s' r' hp
      simp only [Prod.mk.injEq] at hval
      rw [← hval.1, ← hval.2]
      simp [this]

theorem le32_inv (b0 b1 b2 b3 : Nat) (h0 : b0 < 256) (h1 : b1 < 256)
    (h2 : b2 < 256) (h3 : b3 < 256) :
    le32 (b0 + 256 * b1 + 65536 * b2 + 16777216 * b3) = [b0, b1, b2, b3] := by
  simp only [le32, List.cons.injEq, and_true]
  refine ⟨by omega, by omega, by omega, by omega⟩

theorem readLe32_sound : ∀ b n r, readLe32 b = some (n, r) → b = le32 n ++ r := by
  intro b n r h
  match b with
  | b0 :: b1 :: b2 :: b3 :: rest =>
    rw [readLe32] at h
    split at h
    · rename_i hb
      simp at h
      rw [← h.1, ← h.2, le32_inv b0 b1 b2 b3 hb.1 hb.2.1 hb.2.2.1 hb.2.2.2]
      simp
    · simp at h
  | [] => simp [readLe32] at h
  | [_] => simp [readLe32] at h
  | [_, _] => simp [readLe32] at h
  | [_, _, _] => simp [readLe32] at h

theorem parseEnts_sound : ∀ fuel b kvs r,
    parseEnts fuel b = some (kvs, r) → b = encEnts kvs ++ 8 :: r := by
  intro fuel
  induction fuel with
  | zero => intro b kvs r h; simp [parseEnts] at h
  | succ fuel ih =>
    intro b kvs r h
    match b with
    | [] => simp [parseEnts] at h
    | t :: rest =>
      by_cases h8 : t = 8
      · subst h8
        simp [parseEnts] at h
        simp [← h.1, ← h.2, encEnts]
      · by_cases h0 : t = 0
        · subst h0
          simp only [parseEnts] at h
          rw [if_neg (by decide : ¬(0 : Nat) = 8), if_pos trivial] at h
          split at h
          · simp at h
          · rename_i k r1 hk
            split at h
            · simp at h
            · rename_i inner r2 hi
              split at h
              · simp at h
              · rename_i sib r3 hs
                simp only [Option.some.injEq, Prod.mk.injEq] at h
                rw [← h.1, ← h.2]
                rw [readNull_sound rest k r1 hk, ih r1 inner r2 hi, ih r2 sib r3 hs]
                simp [encEnts, encKV]
        · by_cases h1 : t = 1
          · subst h1
            simp only [parseEnts] at h
            rw [if_neg (by decide : ¬(1 : Nat) = 8), if_neg (by decide : ¬(1 : Nat) = 0),
              if_pos trivial] at h
            split at h
            · simp at h
            · rename_i k r1 hk
              split at h
              · simp at h
              · rename_i s r2 hs'
                split at h
                · simp at h
                · rename_i sib r3 hs
                  simp only [Option.some.injEq, Prod.mk.injEq] at h
                  rw [← h.1, ← h.2]
                  rw [readNull_sound rest k r1 hk, readNull_sound r1 s r2 hs',
                    ih r2 sib r3 hs]
                  simp [encEnts, encKV]
          · by_cases h2 : t = 2
            · subst h2
              simp only [parseEnts] at h
              rw [if_neg (by decide : ¬(2 : Nat) = 8), if_neg (by decide : ¬(2 : Nat) = 0),
                if_neg (by decide : ¬(2 : Nat) = 1), if_pos trivial] at h
              split at h
              · simp at h
              · rename_i k r1 hk
                split at h
                · simp at h
                · rename_i n r2 hn
                  split at h
                  · simp at h
                  · rename_i sib r3 hs
                    simp only [Option.some.injEq, Prod.mk.injEq] at h
                    rw [← h.1, ← h.2]
                    rw [readNull_sound rest k r1 hk, readLe32_sound r1 n r2 hn,
                      ih r2 sib r3 hs]
                    simp [encEnts, encKV]
            · simp [parseEnts, h8, h0, h1, h2] at h

theorem parseFile_sound (b : List Nat) (kvs : BKvs) (h : parseFile b = some kvs) :
    encFile kvs = b := by
  unfold parseFile at h
  split at h
  · rename_i kvs' heq
    have := parseEnts_sound (b.length + 1) b kvs' [] heq
    simp at h
    subst h
    simp [encFile, this]
  · simp at h

/-- Byte string of a string literal (ASCII). -/
def bytes (s : String) : List Nat := s.data.map Char.toNat

/-- `VDFHandler.load` for the binary variant (`binary=True`).  Before reading,
a protected file gets a `.bak` copy if one does not already exist (a failing
copy of an absent source is swallowed).  Returns `none` when the file is
absent, and also `none` when its content fails to decode — the code has no
distinct error value for the two cases (`return None` on every failure
path).  `load_backup` is the backup-before-read step. -/
def load_backup (fs : FS) (path : List Char) : FS :=
  if is_protected_file path then
    if (fs.get (path ++ chars ".bak")).isSome then fs
    else
      match fs.get path with
      | some c => fs.set (path ++ chars ".bak") c
      | none => fs
  else fs

/-- The read-and-decode part of `VDFHandler.load` (after the backup step). -/
def load (fs : FS) (path : List Char) : Option BKvs × FS :=
  let fs1 := load_backup fs path
  match fs1.get path with
  | none => (none, fs1)
  | some b => (parseFile b, fs1)

/-- The empty store `dict(shortcuts = empty dict)` that
`NativeSteamService.read_shortcuts_vdf` substitutes on failure. -/
def emptyShortcuts : BKvs := .cons (bytes "shortcuts") (.node .nil) .nil

/-- `NativeSteamService.read_shortcuts_vdf`: reads `shortcuts.vdf` (the
argument is its content, `none` when absent); any exception from
`vdf.binary_load` is caught and replaced by the empty store. -/
def read_shortcuts_vdf (st : Option (List Nat)) : BKvs :=
  match st with
  | none => emptyShortcuts
  | some b =>
    match parseFile b with
    | some t => t
    | none => emptyShortcuts

/-! ## File-system lemmas -/

theorem find?_pred_congr {α : Type} (f g : α → Bool) (l : List α)
    (h : ∀ a ∈ l, f a = g a) : l.find? f = l.find? g := by
  induction l with
  | nil => rfl
  | cons x xs ih =>
    rw [List.find?_cons, List.find?_cons, h x (by simp)]
    cases hg : g x
    · exact ih (fun a ha => h a (by simp [ha]))
    · rfl

theorem find?_filter_ne (l : List (List Char × List Nat)) (p q : List Char) (h : p ≠ q) :
    (l.filter (fun kv => ¬ (kv.1 = q))).find? (fun kv => kv.1 = p) =
      l.find? (fun kv => kv.1 = p) := by
  rw [List.find?_filter]
  apply find?_pred_congr
  intro a _
  by_cases hq : a.1 = q
  · have hp : ¬ (a.1 = p) := by rw [hq]; intro hc; exact h hc.symm
    simp [hq, hp]
    intro hc
    exact h hc.symm
  · simp [hq]

theorem FS.get_set (fs : FS) (q p : List Char) (c : List Nat) :
    (fs.set q c).get p = if p = q then some c else fs.get p := by
  by_cases h : p = q
  · subst h
    simp [FS.set, FS.get, List.find?_cons]
  · have h' : (decide (q = p)) = false := by
      simp only [decide_eq_false_iff_not]
      intro hc
      exact h hc.symm
    simp only [FS.set, FS.get, if_neg h, List.find?_cons, h']
    rw [find?_filter_ne fs p q h]

theorem ne_append_self (p s : List Char) (hs : s ≠ []) : p ≠ p ++ s := by
  intro h
  have := congrArg List.length h
  simp at this
  exact hs this

/-! ## C5 theorems -/

/-- C5 (counterexample): the one-byte content `[1]` is non-empty and
undecodable, yet `VDFHandler.load` returns `None` for it — the very value it
returns for an absent file, so no typed parse error distinguishes the two —
and `read_shortcuts_vdf` silently substitutes the empty store for it, exactly
as it does for an absent file. -/
theorem load_malformed_equals_absent :
    (parseFile [1]).isNone = true ∧ ([1] : List Nat) ≠ [] ∧
    (load [(chars "/u/userdata/1/shortcuts.vdf", [1])]
      (chars "/u/userdata/1/shortcuts.vdf")).1 = none ∧
    (load [] (chars "/u/userdata/1/shortcuts.vdf")).1 = none ∧
    read_shortcuts_vdf (some [1]) = emptyShortcuts ∧
    read_shortcuts_vdf none = emptyShortcuts := by
  refine ⟨by decide, by decide, rfl, rfl, rfl, rfl⟩

/-- C5 (amended): on every failure path `VDFHandler.load` returns `None` —
for an absent file and for an existing file whose content fails to decode
alike — rather than a typed parse error or an empty tree; the target file's
bytes are never modified by a load; and `read_shortcuts_vdf` substitutes the
empty store both for an absent file and for one that failed to parse. -/
theorem load_error_behaviour (fs : FS) (p : List Char) (b : List Nat)
    (hb : parseFile b = none) :
    (fs.get p = some b → (load fs p).1 = none) ∧
    (fs.get p = none → (load fs p).1 = none) ∧
    ((load fs p).2).get p = fs.get p ∧
    read_shortcuts_vdf (some b) = emptyShortcuts ∧
    read_shortcuts_vdf none = emptyShortcuts := by
  have hbak : p ≠ p ++ chars ".bak" := ne_append_self p (chars ".bak") (by decide)
  have hfs1 : (load_backup fs p).get p = fs.get p := by
    unfold load_backup
    by_cases hp : is_protected_file p
    · simp only [if_pos hp]
      by_cases hbk : (fs.get (p ++ chars ".bak")).isSome
      · simp [hbk]
      · simp only [hbk, Bool.false_eq_true, reduceIte]
        cases hgp : fs.get p with
        | none => simp [hgp]
        | some c => simp only [hgp]; rw [FS.get_set, if_neg hbak, hgp]
    · simp [hp]
  refine ⟨?_, ?_, ?_, ?_, rfl⟩
  · intro hg
    unfold load
    simp only
    rw [hfs1, hg]
    simp [hb]
  · intro hg
    unfold load
    simp only
    rw [hfs1, hg]
  · unfold load
    simp only
    cases hg : (load_backup fs p).get p <;> simp [hfs1]
  · simp [read_shortcuts_vdf, hb]

/-- Witness for `load_error_behaviour` at the malformed content `[1]`. -/
theorem load_error_behaviour_witness :
    (load [(chars "/s/shortcuts.vdf", [1])] (chars "/s/shortcuts.vdf")).1 = none ∧
    (load [] (chars "/s/shortcuts.vdf")).1 = none ∧
    read_shortcuts_vdf (some [1]) = emptyShortcuts := by
  have h1 := load_error_behaviour [(chars "/s/shortcuts.vdf", [1])]
    (chars "/s/shortcuts.vdf") [1] rfl
  have h2 := load_error_behaviour [] (chars "/s/shortcuts.vdf") [1] rfl
  exact ⟨h1.1 (by decide), h2.2.1 (by decide), h1.2.2.2.1⟩

/-! ## Text keyed-tree codec

The text variant (`vdf.load` / `vdf.dump(pretty=True)`, also external to
`src/`) is modelled from the spec's grammar: nested `"key" "value"` /
`"key" ( ... )` with whitespace between tokens.  The parser tolerates
arbitrary inter-token whitespace (the launcher's own files use tabs); the
dumper emits one fixed canonical formatting. -/

/-- The `"` character. -/
def quoteC : Char := Char.ofNat 34

/-- The line-feed character. -/
def nlC : Char := Char.ofNat 10

mutual

/-- Modelled from the spec: a text keyed tree — nested maps and string
leaves. -/
inductive TT
  | str (s : List Char)
  | node (kvs : TKvs)

/-- Modelled from the spec: ordered entries of one text map level. -/
inductive TKvs
  | nil
  | cons (k : List Char) (v : TT) (rest : TKvs)

end

/-- `n` tab characters. -/
def tabs : Nat → List Char
  | 0 => []
  | n+1 => '\t' :: tabs n

mutual

/-- Modelled from the spec: serialize one text entry at indent `lvl` —
`"key"<TAB>"value"` on one line, or `"key"` + brace block for a nested map. -/
def dumpKV (lvl : Nat) (k : List Char) (v : TT) : List Char :=
  match v with
  | .str s =>
    tabs lvl ++ [quoteC] ++ k ++ [quoteC, '\t', quoteC] ++ s ++ [quoteC, nlC]
  | .node kvs =>
    tabs lvl ++ [quoteC] ++ k ++ [quoteC, nlC] ++ tabs lvl ++ [obrace, nlC] ++
      dumpEnts (lvl+1) kvs ++ tabs lvl ++ [cbrace, nlC]
termination_by structural v

/-- Modelled from the spec: serialize all entries of one text map level. -/
def dumpEnts (lvl : Nat) : TKvs → List Char
  | .nil => []
  | .cons k v rest => dumpKV lvl k v ++ dumpEnts lvl rest
termination_by structural kvs => kvs

end

/-- Modelled from the spec: serialize a whole text store file. -/
def dumpFile (kvs : TKvs) : List Char := dumpEnts 0 kvs

/-- Whitespace characters (space, tab, LF, CR). -/
def isWs (c : Char) : Bool := c = ' ' || c = '\t' || c = nlC || c = Char.ofNat 13

/-- Drop leading whitespace. -/
def skipWs : List Char → List Char
  | [] => []
  | c :: rest => if isWs c then skipWs rest else c :: rest

/-- Read characters up to (and consuming) the next `"`. -/
def readUntilQ : List Char → Option (List Char × List Char)
  | [] => none
  | c :: rest =>
    if c = quoteC then some ([], rest)
    else (readUntilQ rest).map (fun p => (c :: p.1, p.2))

/-- Modelled from the spec: parse the entries of one text map level, stopping
before a closing brace or at end of input.  `fuel` bounds the recursion. -/
def parseTEnts : Nat → List Char → Option (TKvs × List Char)
  | 0, _ => none
  | fuel+1, input =>
    match skipWs input with
    | [] => some (.nil, [])
    | c :: rest =>
      if c = cbrace then some (.nil, c :: rest)
      else if c = quoteC then
        match readUntilQ rest with
        | none => none
        | some (k, r1) =>
          match skipWs r1 with
          | [] => none
          | c2 :: r2 =>
            if c2 = quoteC then
              match readUntilQ r2 with
              | none => none
              | some (v, r3) =>
                match parseTEnts fuel r3 with
                | none => none
                | some (sib, r4) => some (.cons k (.str v) sib, r4)
            else if c2 = obrace then
              match parseTEnts fuel r2 with
              | none => none
              | some (inner, r3) =>
                match skipWs r3 with
                | [] => none
                | c3 :: r4 =>
                  if c3 = cbrace then
                    match parseTEnts fuel r4 with
                    | none => none
                    | some (sib, r5) => some (.cons k (.node inner) sib, r5)
                  else none
            else none
      else none

/-- Modelled from the spec: parse a whole text store file; fails unless the
input is consumed exactly. -/
def parseTFile (s : List Char) : Option TKvs :=
  match parseTEnts (s.length + 1) s with
  | some (kvs, rest) => if rest = [] then some kvs else none
  | none => none

mutual

/-- Well-formed text value: no quote characters inside string payloads. -/
def wfT : TT → Bool
  | .str s => !s.contains quoteC
  | .node kvs => wfEnts kvs
termination_by structural v => v

/-- Well-formed text entries: no quote characters inside keys or values. -/
def wfEnts : TKvs → Bool
  | .nil => true
  | .cons k v rest => !k.contains quoteC && wfT v && wfEnts rest
termination_by structural kvs => kvs

end

mutual

/-- Number of entries below a text value. -/
def entsT : TT → Nat
  | .str _ => 0
  | .node kvs => entsK kvs
termination_by structural v => v

/-- Number of entries in a text entry list (including nested ones). -/
def entsK : TKvs → Nat
  | .nil => 0
  | .cons _ v rest => 1 + entsT v + entsK rest
termination_by structural kvs => kvs

end

/-! ## Text codec lemmas -/

theorem readUntilQ_exact : ∀ s r, (∀ c ∈ s, c ≠ quoteC) →
    readUntilQ (s ++ quoteC :: r) = some (s, r) := by
  intro s
  induction s with
  | nil => intro r _; simp [readUntilQ]
  | cons c cs ih =>
    intro r h
    have hc : ¬ (c = quoteC) := h c (by simp)
    simp only [List.cons_append, readUntilQ, hc, reduceIte, if_neg hc, List.append_eq]
    rw [ih r (fun x hx => h x (by simp [hx]))]
    rfl

theorem skipWs_append_ws : ∀ w r, (∀ c ∈ w, isWs c = true) →
    skipWs (w ++ r) = skipWs r := by
  intro w
  induction w with
  | nil => intro r _; rfl
  | cons c cs ih =>
    intro r h
    have hc : isWs c = true := h c (by simp)
    simp only [List.cons_append, skipWs, hc, reduceIte, if_pos hc]
    exact ih r (fun x hx => h x (by simp [hx]))

theorem skipWs_cons_not (c : Char) (r : List Char) (h : isWs c = false) :
    skipWs (c :: r) = c :: r := by
  simp [skipWs, h]

theorem tabs_ws (lvl : Nat) : ∀ c ∈ tabs lvl, isWs c = true := by
  induction lvl with
  | zero => simp [tabs]
  | succ n ih =>
    intro c hc
    simp only [tabs, List.mem_cons] at hc
    rcases hc with h | h
    · subst h; decide
    · exact ih c h

theorem parseTEnts_ws (fuel : Nat) (w x : List Char) (h : ∀ c ∈ w, isWs c = true) :
    parseTEnts fuel (w ++ x) = parseTEnts fuel x := by
  cases fuel with
  | zero => rfl
  | succ fuel => simp only [parseTEnts, skipWs_append_ws w x h]

theorem contains_false_ne (s : List Char) (c : Char) (h : (!s.contains c) = true) :
    ∀ x ∈ s, x ≠ c := by
  intro x hx he
  subst he
  have hc : s.contains x = true := by
    simpa [List.contains] using List.elem_iff.mpr hx
  simp [hc] at h
  exact h hx

theorem parseTEnts_dump : ∀ fuel kvs lvl rest,
    entsK kvs < fuel → wfEnts kvs = true →
    (skipWs rest = [] ∨ ∃ r', skipWs rest = cbrace :: r') →
    parseTEnts fuel (dumpEnts lvl kvs ++ rest) = some (kvs, skipWs rest) := by
  intro fuel
  induction fuel with
  | zero => intro kvs lvl rest h _ _; omega
  | succ fuel ih =>
    intro kvs lvl rest hfuel hwf hstop
    have hq : isWs quoteC = false := by decide
    have hob : isWs obrace = false := by decide
    have hcbw : isWs cbrace = false := by decide
    have htb : isWs '\t' = true := by decide
    have hnl : isWs nlC = true := by decide
    have hqcb : ¬ (quoteC = cbrace) := by decide
    have hoq : ¬ (obrace = quoteC) := by decide
    cases kvs with
    | nil =>
      simp only [dumpEnts, List.nil_append, parseTEnts]
      rcases hstop with h | ⟨r', h⟩ <;> simp [h]
    | cons k v sib =>
      cases v with
      | str s =>
        simp only [wfEnts, wfT, Bool.and_eq_true] at hwf
        obtain ⟨⟨hk, hs⟩, hsib⟩ := hwf
        have hkq := contains_false_ne k quoteC hk
        have hsq := contains_false_ne s quoteC hs
        have hfs : entsK sib < fuel := by
          simp only [entsK, entsT] at hfuel
          omega
        have hrk : ∀ r, readUntilQ (k ++ quoteC :: r) = some (k, r) :=
          fun r => readUntilQ_exact k r hkq
        have hrs : ∀ r, readUntilQ (s ++ quoteC :: r) = some (s, r) :=
          fun r => readUntilQ_exact s r hsq
        have hpw : ∀ x, parseTEnts fuel (nlC :: x) = parseTEnts fuel x := by
          intro x
          have := parseTEnts_ws fuel [nlC] x (by intro c hc; simp at hc; subst hc; decide)
          simpa using this
        have hih := ih sib lvl rest hfs hsib hstop
        simp only [dumpEnts, dumpKV, List.append_assoc, List.cons_append,
          List.singleton_append, List.nil_append, parseTEnts,
          skipWs_append_ws _ _ (tabs_ws lvl), skipWs, hq, htb, hnl,
          Bool.false_eq_true, reduceIte, hqcb, hrk, hrs, hpw, hih]
      | node inner =>
        simp only [wfEnts, wfT, Bool.and_eq_true] at hwf
        obtain ⟨⟨hk, hin⟩, hsib⟩ := hwf
        have hkq := contains_false_ne k quoteC hk
        have hfs : entsK sib < fuel := by
          simp only [entsK, entsT] at hfuel
          omega
        have hfi : entsK inner < fuel := by
          simp only [entsK, entsT] at hfuel
          omega
        have hrk : ∀ r, readUntilQ (k ++ quoteC :: r) = some (k, r) :=
          fun r => readUntilQ_exact k r hkq
        have hpw : ∀ x, parseTEnts fuel (nlC :: x) = parseTEnts fuel x := by
          intro x
          have := parseTEnts_ws fuel [nlC] x (by intro c hc; simp at hc; subst hc; decide)
          simpa using this
        have hstopin : ∀ y : List Char,
            skipWs (tabs lvl ++ cbrace :: y) = [] ∨
            ∃ r', skipWs (tabs lvl ++ cbrace :: y) = cbrace :: r' := by
          intro y
          right
          exact ⟨y, by rw [skipWs_append_ws _ _ (tabs_ws lvl), skipWs_cons_not _ _ (by decide)]⟩
        have hihin := fun y : List Char =>
          ih inner (lvl+1) (tabs lvl ++ cbrace :: y) hfi hin (hstopin y)
        have hskin : ∀ y : List Char,
            skipWs (tabs lvl ++ cbrace :: y) = cbrace :: y := by
          intro y
          rw [skipWs_append_ws _ _ (tabs_ws lvl), skipWs_cons_not _ _ (by decide)]
        have hih := ih sib lvl rest hfs hsib hstop
        simp only [dumpEnts, dumpKV, List.append_assoc, List.cons_append,
          List.singleton_append, List.nil_append, parseTEnts,
          skipWs_append_ws _ _ (tabs_ws lvl), skipWs, hq, hob, hcbw, htb, hnl,
          Bool.false_eq_true, reduceIte, hqcb, hoq, hrk, hpw, hihin, hskin, hih]

mutual

theorem entsT_lt_dumpKV (lvl : Nat) (k : List Char) (v : TT) :
    entsT v + 1 ≤ (dumpKV lvl k v).length := by
  match v with
  | .str s =>
    simp only [dumpKV, entsT, List.length_append, List.length_cons]
    omega
  | .node kvs =>
    have h := entsK_le_dumpEnts (lvl+1) kvs
    simp only [dumpKV, entsT, List.length_append, List.length_cons]
    omega
termination_by sizeOf v

theorem entsK_le_dumpEnts (lvl : Nat) (kvs : TKvs) :
    entsK kvs ≤ (dumpEnts lvl kvs).length := by
  match kvs with
  | .nil => simp [dumpEnts, entsK]
  | .cons k v rest =>
    have h1 := entsT_lt_dumpKV lvl k v
    have h2 := entsK_le_dumpEnts lvl rest
    simp only [dumpEnts, entsK, List.length_append]
    omega
termination_by sizeOf kvs

end

/-- Canonical text store files round-trip: dumping then re-parsing recovers
the tree exactly (so a second save is byte-identical to the first). -/
theorem parseTFile_dump (kvs : TKvs) (hwf : wfEnts kvs = true) :
    parseTFile (dumpFile kvs) = some kvs := by
  unfold parseTFile dumpFile
  have hlt : entsK kvs < (dumpEnts 0 kvs).length + 1 :=
    Nat.lt_succ_of_le (entsK_le_dumpEnts 0 kvs)
  have h := parseTEnts_dump ((dumpEnts 0 kvs).length + 1) kvs 0 [] hlt hwf (Or.inl rfl)
  rw [List.append_nil] at h
  rw [h]
  rfl

/-! ## C4 theorems -/

/-- C4 (counterexample): the one-line text store `"a"  "b"` (two spaces
between key and value) is loadable by the text codec, but re-serializing the
loaded tree does not reproduce it byte-identically — the dumper normalizes the
separator — refuting byte-identity of `save(load(f))` for every loadable
file. -/
theorem text_roundtrip_not_byte_identical :
    parseTFile (chars "\"a\"  \"b\"\n") =
      some (.cons (chars "a") (.str (chars "b")) .nil) ∧
    dumpFile (.cons (chars "a") (.str (chars "b")) .nil) ≠ chars "\"a\"  \"b\"\n" := by
  constructor
  · rfl
  · intro h
    have := congrArg List.length h
    simp [dumpFile, dumpEnts, dumpKV, tabs, chars] at this

/-- C4 (amended): round-tripping is byte-identical for the binary shortcut
store — any file the binary codec parses is reproduced exactly by
re-serialization — while the text variant only round-trips the tree: parsing
canonical dumper output recovers the tree exactly (hence byte-identity holds
from the first re-save onward), but a loadable text file with non-canonical
whitespace is re-serialized differently. -/
theorem codec_roundtrip (b : List Nat) (kvs : BKvs) (t : TKvs)
    (hb : parseFile b = some kvs) (ht : wfEnts t = true) :
    encFile kvs = b ∧ parseTFile (dumpFile t) = some t :=
  ⟨parseFile_sound b kvs hb, parseTFile_dump t ht⟩

/-- Witness for `codec_roundtrip` on a concrete binary store and text tree. -/
theorem codec_roundtrip_witness :
    encFile emptyShortcuts = [0, 115, 104, 111, 114, 116, 99, 117, 116, 115, 0, 8, 8] ∧
    parseTFile (dumpFile (.cons (chars "a") (.str (chars "b")) .nil)) =
      some (.cons (chars "a") (.str (chars "b")) .nil) :=
  codec_roundtrip [0, 115, 104, 111, 114, 116, 99, 117, 116, 115, 0, 8, 8]
    emptyShortcuts (.cons (chars "a") (.str (chars "b")) .nil) rfl (by decide)

/-! ## Compatibility-tool mapping surgery
    (`NativeSteamService.set_proton_version` in
    `src/jackify/backend/services/native_steam_service.py`) -/

/-- Python `str.find(needle)`: index of the first occurrence, `none` when
absent (the code's `-1`). -/
def findSub (needle : List Char) : List Char → Option Nat
  | [] => if needle = [] then some 0 else none
  | c :: rest =>
    if needle.isPrefixOf (c :: rest) then some 0
    else (findSub needle rest).map (· + 1)

/-- Python `str.find(ch, start)`. -/
def findCharFrom (hay : List Char) (c : Char) (start : Nat) : Option Nat :=
  (findSub [c] (hay.drop start)).map (· + start)

/-- The brace-counting loop of `set_proton_version`: starting after the
section's opening brace with `brace_count = 1`, returns the offset of the
matching closing brace. -/
def braceScan : List Char → Nat → Option Nat
  | [], _ => none
  | x :: rest, count =>
    if x = obrace then (braceScan rest (count+1)).map (· + 1)
    else if x = cbrace then
      if count = 1 then some 0
      else (braceScan rest (count-1)).map (· + 1)
    else (braceScan rest count).map (· + 1)

/-- The inserted entry block, the f-string of `set_proton_version`:
five-tab indented `"appid"`, brace block with `"name"`, `"config"` (empty) and
`"priority"` `"250"` fields, tab-separated. -/
def newEntry (appIdStr ver : List Char) : List Char :=
  tabs 5 ++ [quoteC] ++ appIdStr ++ [quoteC, nlC] ++ tabs 5 ++ [obrace, nlC] ++
  tabs 6 ++ [quoteC] ++ chars "name" ++ [quoteC, '\t', '\t', quoteC] ++ ver ++ [quoteC, nlC] ++
  tabs 6 ++ [quoteC] ++ chars "config" ++ [quoteC, '\t', '\t', quoteC, quoteC, nlC] ++
  tabs 6 ++ [quoteC] ++ chars "priority" ++ [quoteC, '\t', '\t', quoteC] ++ chars "250" ++
  [quoteC, nlC] ++ tabs 5 ++ [cbrace, nlC]

/-- `NativeSteamService.set_proton_version`, the pure text surgery on the
`config.vdf` content: locate `"CompatToolMapping"`, find its opening brace,
balance braces to the matching close, and splice the new entry immediately
before it.  `none` models the `return False` error paths (section or braces
not found).  The duplicate-AppID check in the code only logs; the backup copy
does not affect the produced text. -/
def set_proton_version (text : List Char) (appId : Nat) (ver : List Char) :
    Option (List Char) :=
  match findSub (chars "\"CompatToolMapping\"") text with
  | none => none
  | some compat_start =>
    match findCharFrom text obrace compat_start with
    | none => none
    | some brace_start =>
      match braceScan (text.drop (brace_start + 1)) 1 with
      | none => none
      | some off =>
        let compat_end := brace_start + 1 + off
        some (text.take compat_end ++ newEntry (natToDec appId) ver ++
              text.drop compat_end)

/-- Brace counter after scanning a segment from counter value `c`. -/
def segCount : List Char → Nat → Nat
  | [], c => c
  | x :: xs, c =>
    if x = obrace then segCount xs (c+1)
    else if x = cbrace then segCount xs (c-1)
    else segCount xs c

/-- A segment is safe when scanning it from counter `c` never closes the
outermost brace (the counter never moves from 1 to 0). -/
def segSafe : List Char → Nat → Bool
  | [], _ => true
  | x :: xs, c =>
    if x = obrace then segSafe xs (c+1)
    else if x = cbrace then decide (c ≠ 1) && segSafe xs (c-1)
    else segSafe xs c

/-- Number of top-level entry blocks in a section body: opening braces seen
while the counter (starting at 1 inside the section) equals 1. -/
def countTop : List Char → Nat → Nat
  | [], _ => 0
  | x :: xs, c =>
    if x = obrace then (if c = 1 then 1 else 0) + countTop xs (c+1)
    else if x = cbrace then countTop xs (c-1)
    else countTop xs c

/-! ## Surgery lemmas -/

theorem findSub_spec (needle pre post : List Char)
    (h : ∀ i < pre.length, ¬ needle <+: ((pre ++ needle ++ post).drop i)) :
    findSub needle (pre ++ needle ++ post) = some pre.length := by
  induction pre with
  | nil =>
    simp only [List.nil_append, List.length_nil]
    cases hnp : needle ++ post with
    | nil =>
      have hne : needle = [] := by cases needle <;> simp_all
      simp [findSub, hne]
    | cons c rest =>
      have hp : needle.isPrefixOf (c :: rest) = true := by
        rw [← hnp]
        exact List.isPrefixOf_iff_prefix.mpr ⟨post, rfl⟩
      simp [findSub, hp]
  | cons c pre' ih =>
    have h0 : ¬ needle.isPrefixOf (c :: (pre' ++ needle ++ post)) = true := by
      intro hp
      exact h 0 (by simp) (by simpa using List.isPrefixOf_iff_prefix.mp hp)
    simp only [List.cons_append, findSub, h0, if_false, Bool.false_eq_true, reduceIte,
      List.append_eq]
    rw [ih (fun i hi => by
      have := h (i+1) (by simpa using hi)
      simpa using this)]
    simp

theorem findSub_single_notin (c : Char) (w rest : List Char) (hw : ∀ x ∈ w, x ≠ c) :
    findSub [c] (w ++ c :: rest) = some w.length := by
  induction w with
  | nil =>
    have hp : [c].isPrefixOf (c :: rest) = true :=
      List.isPrefixOf_iff_prefix.mpr ⟨rest, rfl⟩
    simp only [List.nil_append, findSub, hp, reduceIte, if_pos hp, List.length_nil]
  | cons x w' ih =>
    have hx : ¬ [c].isPrefixOf (x :: (w' ++ c :: rest)) = true := by
      intro hp
      obtain ⟨t, ht⟩ := List.isPrefixOf_iff_prefix.mp hp
      have : x = c := by
        have := congrArg (List.head?) ht
        simpa using this.symm
      exact hw x (by simp) this
    simp only [List.cons_append, findSub, hx, if_false, Bool.false_eq_true, reduceIte,
      List.append_eq]
    rw [ih (fun y hy => hw y (by simp [hy]))]
    simp

theorem braceScan_append (xs : List Char) : ∀ c ys, segSafe xs c = true →
    braceScan (xs ++ ys) c = (braceScan ys (segCount xs c)).map (· + xs.length) := by
  induction xs with
  | nil =>
    intro c ys _
    simp [segCount]
  | cons x xs ih =>
    intro c ys hsafe
    by_cases hob : x = obrace
    · subst hob
      simp only [segSafe, reduceIte] at hsafe
      simp only [List.cons_append, braceScan, segCount, reduceIte, List.append_eq]
      rw [ih (c+1) ys hsafe]
      simp only [Option.map_map]
      rfl
    · by_cases hcb : x = cbrace
      · subst hcb
        have hnool : ¬ (cbrace = obrace) := by decide
        simp only [segSafe, hnool, if_false, Bool.false_eq_true, reduceIte,
          Bool.and_eq_true, decide_eq_true_eq] at hsafe
        obtain ⟨hne, hsafe⟩ := hsafe
        simp only [List.cons_append, braceScan, segCount, hnool, if_false,
          Bool.false_eq_true, reduceIte, if_neg hne, List.append_eq]
        rw [ih (c-1) ys hsafe]
        simp only [Option.map_map]
        rfl
      · simp only [segSafe, hob, hcb, if_false, Bool.false_eq_true, reduceIte] at hsafe
        simp only [List.cons_append, braceScan, segCount, hob, hcb, if_false,
          Bool.false_eq_true, reduceIte, List.append_eq]
        rw [ih c ys hsafe]
        simp only [Option.map_map]
        rfl

theorem countTop_append (xs : List Char) : ∀ c ys,
    countTop (xs ++ ys) c = countTop xs c + countTop ys (segCount xs c) := by
  induction xs with
  | nil => intro c ys; simp [countTop, segCount]
  | cons x xs ih =>
    intro c ys
    by_cases hob : x = obrace
    · subst hob
      simp only [List.cons_append, countTop, segCount, reduceIte, List.append_eq]
      rw [ih]
      omega
    · by_cases hcb : x = cbrace
      · subst hcb
        have hnool : ¬ (cbrace = obrace) := by decide
        simp only [List.cons_append, countTop, segCount, hnool, if_false,
          Bool.false_eq_true, reduceIte, List.append_eq]
        rw [ih]
      · simp only [List.cons_append, countTop, segCount, hob, hcb, if_false,
          Bool.false_eq_true, reduceIte, List.append_eq]
        rw [ih]

theorem bracefree_segCount_countTop (w : List Char)
    (hw : ∀ x ∈ w, x ≠ obrace ∧ x ≠ cbrace) :
    ∀ c, segCount w c = c ∧ countTop w c = 0 := by
  induction w with
  | nil => intro c; exact ⟨rfl, rfl⟩
  | cons x xs ih =>
    intro c
    obtain ⟨hxo, hxc⟩ := hw x (by simp)
    have ihx := ih (fun y hy => hw y (by simp [hy]))
    constructor
    · simp only [segCount, hxo, hxc, if_false, Bool.false_eq_true, reduceIte]
      exact (ihx c).1
    · simp only [countTop, hxo, hxc, if_false, Bool.false_eq_true, reduceIte]
      exact (ihx c).2

theorem forall_mem_append_intro {P : Char → Prop} {u w : List Char}
    (hu : ∀ x ∈ u, P x) (hw : ∀ x ∈ w, P x) : ∀ x ∈ u ++ w, P x := by
  intro x hx
  rcases List.mem_append.mp hx with h | h
  exacts [hu x h, hw x h]

theorem natToDecAux_digits (fuel : Nat) : ∀ n acc,
    (∀ c ∈ acc, 48 ≤ c.toNat ∧ c.toNat ≤ 57) →
    ∀ c ∈ natToDecAux fuel n acc, 48 ≤ c.toNat ∧ c.toNat ≤ 57 := by
  induction fuel with
  | zero => intro n acc hacc c hc; exact hacc c hc
  | succ fuel ih =>
    intro n acc hacc c hc
    have h10 : n % 10 < 10 := Nat.mod_lt _ (by omega)
    have hd : 48 ≤ (Char.ofNat (48 + n % 10)).toNat ∧
        (Char.ofNat (48 + n % 10)).toNat ≤ 57 := by
      set m := n % 10 with hm
      interval_cases m <;> exact ⟨by decide, by decide⟩
    have hcons : ∀ x ∈ (Char.ofNat (48 + n % 10)) :: acc,
        48 ≤ x.toNat ∧ x.toNat ≤ 57 := by
      intro x hx
      rcases List.mem_cons.mp hx with h | h
      · subst h; exact hd
      · exact hacc x h
    simp only [natToDecAux] at hc
    by_cases hn : n < 10
    · rw [if_pos hn] at hc
      exact hcons c hc
    · rw [if_neg hn] at hc
      exact ih (n / 10) _ hcons c hc

theorem natToDec_digits (n : Nat) : ∀ c ∈ natToDec n, 48 ≤ c.toNat ∧ c.toNat ≤ 57 :=
  natToDecAux_digits (n+1) n [] (by simp)

/-- Decimal digit strings contain no brace and no quote character. -/
theorem natToDec_plain (n : Nat) :
    ∀ c ∈ natToDec n, c ≠ obrace ∧ c ≠ cbrace ∧ c ≠ quoteC := by
  intro c hc
  have h := natToDec_digits n c hc
  refine ⟨?_, ?_, ?_⟩ <;> intro he <;> subst he <;> revert h <;> decide

theorem countTop_single_block (w1 w2 w3 : List Char)
    (h1 : ∀ x ∈ w1, x ≠ obrace ∧ x ≠ cbrace)
    (h2 : ∀ x ∈ w2, x ≠ obrace ∧ x ≠ cbrace)
    (h3 : ∀ x ∈ w3, x ≠ obrace ∧ x ≠ cbrace) :
    countTop (w1 ++ obrace :: (w2 ++ cbrace :: w3)) 1 = 1 := by
  rw [countTop_append, (bracefree_segCount_countTop w1 h1 1).1,
    (bracefree_segCount_countTop w1 h1 1).2]
  simp only [countTop, reduceIte]
  rw [countTop_append, (bracefree_segCount_countTop w2 h2 2).1,
    (bracefree_segCount_countTop w2 h2 2).2]
  have hcb : ¬ (cbrace = obrace) := by decide
  simp only [countTop, hcb, if_false, Bool.false_eq_true, reduceIte]
  rw [(bracefree_segCount_countTop w3 h3 1).2]

/-- The inserted block contains exactly one top-level entry. -/
theorem countTop_newEntry (a v : List Char)
    (ha : ∀ x ∈ a, x ≠ obrace ∧ x ≠ cbrace)
    (hv : ∀ x ∈ v, x ≠ obrace ∧ x ≠ cbrace) :
    countTop (newEntry a v) 1 = 1 := by
  have he : newEntry a v =
      (tabs 5 ++ [quoteC] ++ a ++ [quoteC, nlC] ++ tabs 5) ++ obrace ::
        ((nlC :: tabs 6 ++ [quoteC] ++ chars "name" ++ [quoteC, '\t', '\t', quoteC] ++ v ++
          ([quoteC, nlC] ++ tabs 6 ++ [quoteC] ++ chars "config" ++
           [quoteC, '\t', '\t', quoteC, quoteC, nlC] ++ tabs 6 ++ [quoteC] ++
           chars "priority" ++ [quoteC, '\t', '\t', quoteC] ++ chars "250" ++
           [quoteC, nlC] ++ tabs 5)) ++ cbrace :: [nlC]) := by
    simp [newEntry, List.append_assoc]
  rw [he]
  refine countTop_single_block _ _ _ ?_ ?_ (by decide)
  · exact forall_mem_append_intro (forall_mem_append_intro (forall_mem_append_intro
      (forall_mem_append_intro (by decide) (by decide)) ha) (by decide)) (by decide)
  · refine forall_mem_append_intro ?_ (by decide)
    exact forall_mem_append_intro (forall_mem_append_intro (forall_mem_append_intro
      (forall_mem_append_intro (by decide) (by decide)) (by decide)) (by decide)) hv

/-! ## C2 theorem -/

/-- C2: for any compatibility-mapping file text whose `"CompatToolMapping"`
section (first occurrence of the label, opening brace next after it,
brace-balanced body) contains `N` top-level entries, a successful
`set_proton_version` splices the new entry immediately before the section's
closing brace: the resulting text keeps every byte outside the inserted block
unchanged (the text decomposes identically around `newEntry`), and the
section body now has `N + 1` top-level entries.  The inserted block's key is
the decimal rendering of the unsigned AppID, its `name` is the runtime name,
its `config` is empty and its `priority` is the constant `250` (see
`parseEntry_newEntry`). -/
theorem set_proton_version_spec
    (pre gap body post ver : List Char) (appId : Nat)
    (hpre : ∀ i < pre.length,
      ¬ (chars "\"CompatToolMapping\"" <+:
        ((pre ++ chars "\"CompatToolMapping\"" ++
          (gap ++ obrace :: (body ++ cbrace :: post))).drop i)))
    (hgap : ∀ x ∈ gap, x ≠ obrace)
    (hsafe : segSafe body 1 = true) (hbal : segCount body 1 = 1)
    (hver : ∀ x ∈ ver, x ≠ obrace ∧ x ≠ cbrace) :
    set_proton_version
      (pre ++ chars "\"CompatToolMapping\"" ++ (gap ++ obrace :: (body ++ cbrace :: post)))
      appId ver =
      some (pre ++ chars "\"CompatToolMapping\"" ++
        (gap ++ obrace :: ((body ++ newEntry (natToDec appId) ver) ++ cbrace :: post))) ∧
    countTop (body ++ newEntry (natToDec appId) ver) 1 = countTop body 1 + 1 := by
  set KEY := chars "\"CompatToolMapping\"" with hKEY
  set text := pre ++ KEY ++ (gap ++ obrace :: (body ++ cbrace :: post)) with htext
  have hfind : findSub KEY text = some pre.length :=
    findSub_spec KEY pre (gap ++ obrace :: (body ++ cbrace :: post)) hpre
  have hdrop : text.drop pre.length = (KEY ++ gap) ++ obrace :: (body ++ cbrace :: post) := by
    rw [htext, List.append_assoc]
    rw [List.drop_left]
    simp [List.append_assoc]
  have hKEYplain : ∀ x ∈ KEY, x ≠ obrace := by rw [hKEY]; decide
  have hfc : findCharFrom text obrace pre.length =
      some ((KEY ++ gap).length + pre.length) := by
    unfold findCharFrom
    rw [hdrop, findSub_single_notin obrace (KEY ++ gap) _
      (forall_mem_append_intro hKEYplain hgap)]
    rfl
  have hlen1 : (pre ++ (KEY ++ gap ++ [obrace])).length =
      (KEY ++ gap).length + pre.length + 1 := by
    simp [List.length_append]
    omega
  have htext2 : text = (pre ++ (KEY ++ gap ++ [obrace])) ++ (body ++ cbrace :: post) := by
    rw [htext]
    simp [List.append_assoc]
  have hdrop2 : text.drop ((KEY ++ gap).length + pre.length + 1) =
      body ++ cbrace :: post := by
    rw [htext2, List.drop_left' hlen1]
  have hscan : braceScan (body ++ cbrace :: post) 1 = some body.length := by
    rw [braceScan_append body 1 _ hsafe, hbal]
    have : braceScan (cbrace :: post) 1 = some 0 := by
      have hne : ¬ (cbrace = obrace) := by decide
      simp [braceScan, hne]
    rw [this]
    simp
  have hlen2 : ((pre ++ (KEY ++ gap ++ [obrace])) ++ body).length =
      (KEY ++ gap).length + pre.length + 1 + body.length := by
    simp [List.length_append]
    omega
  have htext3 : text = ((pre ++ (KEY ++ gap ++ [obrace])) ++ body) ++ (cbrace :: post) := by
    rw [htext]
    simp [List.append_assoc]
  have hdigits : ∀ x ∈ natToDec appId, x ≠ obrace ∧ x ≠ cbrace := by
    intro x hx
    have := natToDec_plain appId x hx
    exact ⟨this.1, this.2.1⟩
  constructor
  · simp only [set_proton_version, hfind, hfc, hdrop2, hscan]
    rw [htext3, List.take_left' hlen2, List.drop_left' hlen2]
    simp [List.append_assoc]
  · rw [countTop_append body 1 _, hbal, countTop_newEntry _ _ hdigits hver]

/-- Read one whitespace-led quoted token. -/
def readQuotedTok (s : List Char) : Option (List Char × List Char) :=
  match skipWs s with
  | c :: r => if c = quoteC then readUntilQ r else none
  | [] => none

/-- Read a `"key" "value"` pair. -/
def parsePair (s : List Char) : Option ((List Char × List Char) × List Char) :=
  match readQuotedTok s with
  | none => none
  | some (k, r) =>
    match readQuotedTok r with
    | none => none
    | some (v, r2) => some ((k, v), r2)

/-- Parse one `"key"` + brace block of exactly three pairs — the syntactic
well-formedness observation for an inserted mapping entry. -/
def parseEntry (s : List Char) : Option (List Char × List (List Char × List Char)) :=
  match readQuotedTok s with
  | none => none
  | some (key, r1) =>
    match skipWs r1 with
    | [] => none
    | c :: r2 =>
      if c = obrace then
        match parsePair r2 with
        | none => none
        | some (p1, r3) =>
          match parsePair r3 with
          | none => none
          | some (p2, r4) =>
            match parsePair r4 with
            | none => none
            | some (p3, r5) =>
              match skipWs r5 with
              | c2 :: _ => if c2 = cbrace then some (key, [p1, p2, p3]) else none
              | [] => none
      else none

set_option maxHeartbeats 1000000 in
/-- The inserted block is a syntactically well-formed mapping entry whose key
is the AppID string, with fields `name = ver`, `config = ""` and
`priority = "250"`. -/
theorem parseEntry_newEntry (a v : List Char)
    (ha : ∀ x ∈ a, x ≠ quoteC) (hvq : ∀ x ∈ v, x ≠ quoteC) :
    parseEntry (newEntry a v) =
      some (a, [(chars "name", v), (chars "config", []),
                (chars "priority", chars "250")]) := by
  have hq : isWs quoteC = false := by decide
  have hob : isWs obrace = false := by decide
  have hcbw : isWs cbrace = false := by decide
  have htb : isWs '\t' = true := by decide
  have hnl : isWs nlC = true := by decide
  have hoq : ¬ (obrace = quoteC) := by decide
  have hra : ∀ r, readUntilQ (a ++ quoteC :: r) = some (a, r) :=
    fun r => readUntilQ_exact a r ha
  have hrv : ∀ r, readUntilQ (v ++ quoteC :: r) = some (v, r) :=
    fun r => readUntilQ_exact v r hvq
  have hrname : ∀ r, readUntilQ (chars "name" ++ quoteC :: r) = some (chars "name", r) :=
    fun r => readUntilQ_exact (chars "name") r (by decide)
  have hrconfig : ∀ r, readUntilQ (chars "config" ++ quoteC :: r) =
      some (chars "config", r) :=
    fun r => readUntilQ_exact (chars "config") r (by decide)
  have hrprio : ∀ r, readUntilQ (chars "priority" ++ quoteC :: r) =
      some (chars "priority", r) :=
    fun r => readUntilQ_exact (chars "priority") r (by decide)
  have hr250 : ∀ r, readUntilQ (chars "250" ++ quoteC :: r) = some (chars "250", r) :=
    fun r => readUntilQ_exact (chars "250") r (by decide)
  have hremp : ∀ r, readUntilQ (quoteC :: r) = some ([], r) := by
    intro r
    simp [readUntilQ]
  simp only [parseEntry, readQuotedTok, parsePair]
  simp only [newEntry, List.append_assoc, List.cons_append, List.singleton_append,
    List.nil_append]
  simp only [skipWs_append_ws _ _ (tabs_ws 5), skipWs, hq, htb, hnl,
    Bool.false_eq_true, reduceIte]
  simp only [hra]
  simp only [skipWs_append_ws _ _ (tabs_ws 5), skipWs_append_ws _ _ (tabs_ws 6),
    skipWs, hq, hob, hcbw, htb, hnl, Bool.false_eq_true, reduceIte, hoq,
    hrname, hrv]
  simp only [skipWs_append_ws _ _ (tabs_ws 5), skipWs_append_ws _ _ (tabs_ws 6),
    skipWs, hq, hob, hcbw, htb, hnl, Bool.false_eq_true, reduceIte, hoq,
    hrconfig, hrprio, hr250, hremp]

/-- Witness for `set_proton_version_spec`: a two-byte prefix, an empty mapping
section, AppID 3 and the default runtime name. -/
theorem set_proton_version_spec_witness :
    set_proton_version
      (chars "AB" ++ chars "\"CompatToolMapping\"" ++
        (chars "\n" ++ obrace :: ([] ++ cbrace :: chars "\n")))
      3 (chars "proton_experimental") =
      some (chars "AB" ++ chars "\"CompatToolMapping\"" ++
        (chars "\n" ++ obrace ::
          (([] ++ newEntry (natToDec 3) (chars "proton_experimental")) ++
            cbrace :: chars "\n"))) ∧
    countTop ([] ++ newEntry (natToDec 3) (chars "proton_experimental")) 1 =
      countTop [] 1 + 1 :=
  set_proton_version_spec (chars "AB") (chars "\n") [] (chars "\n")
    (chars "proton_experimental") 3 (by decide) (by decide) (by decide)
    (by decide) (by decide)

/-! ## Shortcut registrar
    (`NativeSteamService.create_shortcut` / `remove_shortcut` /
    `list_shortcuts` in `src/jackify/backend/services/native_steam_service.py`) -/

/-- One shortcut entry with the exact fields `create_shortcut` writes. -/
structure Shortcut where
  appid : Int
  AppName : List Char
  Exe : List Char
  StartDir : List Char
  icon : List Char
  ShortcutPath : List Char
  LaunchOptions : List Char
  IsHidden : Nat
  AllowDesktopConfig : Nat
  AllowOverlay : Nat
  OpenVR : Nat
  Devkit : Nat
  DevkitGameID : List Char
  DevkitOverrideAppID : Nat
  LastPlayTime : Nat
  IsInstalled : Nat
  FlatpakAppID : List Char
  tags : List (List Char × List Char)
  deriving DecidableEq, Repr

/-- The `'shortcuts'` dict: insertion-ordered entries keyed by decimal index
strings. -/
abbrev Store := List (List Char × Shortcut)

/-- `generate_app_id`: `r` is the value drawn by
`random.randint(100000000, 999999999)`; the signed AppID is its negation and
the unsigned AppID is `signed + 2^32`. -/
def generate_app_id (r : Nat) : Int × Int :=
  (-(r : Int), -(r : Int) + 2^32)

/-- Python `str.isdigit` (ASCII digits suffice here). -/
def isDigits (s : List Char) : Bool :=
  decide (s ≠ []) && s.all (fun c => 48 ≤ c.toNat && c.toNat ≤ 57)

/-- Parse a decimal digit string. -/
def decToNat (s : List Char) : Nat :=
  s.foldl (fun acc c => acc * 10 + (c.toNat - 48)) 0

/-- `max(indices, default=-1) + 1` over the store's digit keys. -/
def next_index (store : Store) : Nat :=
  let indices := ((store.map (·.1)).filter isDigits).map decToNat
  (((indices.map (Int.ofNat)).foldl max (-1)) + 1).toNat

/-- Index of the last occurrence of a character. -/
def lastIndexOf (p : List Char) (c : Char) : Option Nat :=
  ((List.range p.length).filter (fun i => p.getD i ' ' = c)).getLast?

/-- `str(Path(p).parent)` for the plain POSIX paths used here: everything
before the last `/` (root stays `/`; a bare name gives `.`). -/
def dirname (p : List Char) : List Char :=
  match lastIndexOf p '/' with
  | none => chars "."
  | some 0 => ['/']
  | some i => p.take i

/-- Icon-discovery state for `create_shortcut`: whether `SteamIcons` next to
the executable is a directory, whether `grid-tall.png` exists in it, and the
PNG paths that globbing returns (in listing order). -/
structure IconFS where
  steamIconsDir : Bool
  gridTall : Bool
  pngs : List (List Char)

/-- `create_shortcut`.  `r` is the random draw of `generate_app_id`,
`writeOk` the success of `write_shortcuts_vdf`, `ifs` the icon-discovery
state, `store` the current `'shortcuts'` dict.  Returns the Python value
`(success, unsigned_app_id)` and the store as persisted on disk (unchanged
when the write fails). -/
def create_shortcut (r : Nat) (writeOk : Bool) (ifs : IconFS) (store : Store)
    (app_name exe_path : List Char) (start_dir : Option (List Char))
    (launch_options : List Char) (tags : List (List Char)) :
    (Bool × Option Int) × Store :=
  let start_dir := match start_dir with
    | some s => if s = [] then dirname exe_path else s
    | none => dirname exe_path
  let tags := if tags = [] then [chars "Jackify"] else tags
  let su := generate_app_id r
  let idx := next_index store
  let icon_path :=
    if ifs.steamIconsDir then
      if ifs.gridTall then dirname exe_path ++ chars "/SteamIcons/grid-tall.png"
      else
        match ifs.pngs with
        | p :: _ => p
        | [] => []
    else []
  let entry : Shortcut :=
    { appid := su.1, AppName := app_name,
      Exe := quoteC :: (exe_path ++ [quoteC]),
      StartDir := quoteC :: (start_dir ++ [quoteC]),
      icon := icon_path, ShortcutPath := [], LaunchOptions := launch_options,
      IsHidden := 0, AllowDesktopConfig := 1, AllowOverlay := 1, OpenVR := 0,
      Devkit := 0, DevkitGameID := [], DevkitOverrideAppID := 0,
      LastPlayTime := 0, IsInstalled := 1, FlatpakAppID := [],
      tags := tags.enum.map (fun it => (natToDec it.1, it.2)) }
  let store' := store ++ [(natToDec idx, entry)]
  if writeOk then ((true, some su.2), store') else ((false, none), store)

/-- `list_shortcuts`: index ↦ `AppName`, in store order (every entry of the
typed model has an `AppName`, so the `'Unknown'` default cannot fire). -/
def list_shortcuts (store : Store) : List (List Char × List Char) :=
  store.map (fun kv => (kv.1, kv.2.AppName))

/-- Number of listed shortcuts bearing a given name. -/
def countName (store : Store) (n : List Char) : Nat :=
  ((list_shortcuts store).filter (fun kv => kv.2 = n)).length

/-- `remove_shortcut`: find the first entry (iteration order) whose `AppName`
matches, `del` it by key, write back; `False` and no write when nothing
matches.  `writeOk` is the success of `write_shortcuts_vdf`; on write failure
the file keeps the old store. -/
def remove_shortcut (writeOk : Bool) (store : Store) (app_name : List Char) :
    Bool × Store :=
  match store.find? (fun kv => kv.2.AppName = app_name) with
  | none => (false, store)
  | some kv =>
    let store' := store.eraseP (fun e => e.1 = kv.1)
    if writeOk then (true, store') else (false, store)

theorem countName_append (s t : Store) (n : List Char) :
    countName (s ++ t) n = countName s n + countName t n := by
  simp [countName, list_shortcuts, List.filter_append]

/-! ## C3 theorems -/

/-- C3 (counterexample): creating a shortcut named `Foo` twice (the second
call succeeding on a store that already lists `Foo`) leaves `list_shortcuts`
containing the name `Foo` twice, not exactly once — `create_shortcut` never
checks for an existing name. -/
theorem create_shortcut_duplicate_name :
    countName
      ((create_shortcut 100000000 true ⟨false, false, []⟩
        ((create_shortcut 100000000 true ⟨false, false, []⟩ [] (chars "Foo")
          (chars "/x/m.exe") none (chars "%command%") []).2)
        (chars "Foo") (chars "/x/m.exe") none (chars "%command%") []).2)
      (chars "Foo") = 2 ∧
    ((create_shortcut 100000000 true ⟨false, false, []⟩
        ((create_shortcut 100000000 true ⟨false, false, []⟩ [] (chars "Foo")
          (chars "/x/m.exe") none (chars "%command%") []).2)
        (chars "Foo") (chars "/x/m.exe") none (chars "%command%") []).1).1 = true := by
  constructor <;> decide

/-- C3 (amended): a successful `create_shortcut(n, ...)` appends exactly one
new entry, so `list_shortcuts` afterwards contains the name `n` exactly one
time more than before (exactly once when it was absent); the returned
unsigned identifier equals the stored entry's signed identifier plus `2^32`,
and the signed identifier is a negative integer in the fixed generation range
`[-999999999, -100000000]`. -/
theorem create_shortcut_spec (r : Nat) (ifs : IconFS) (store : Store)
    (n exe : List Char) (sd : Option (List Char)) (lo : List Char)
    (tg : List (List Char)) (hr1 : 100000000 ≤ r) (hr2 : r ≤ 999999999) :
    ((create_shortcut r true ifs store n exe sd lo tg).1).1 = true ∧
    countName (create_shortcut r true ifs store n exe sd lo tg).2 n =
      countName store n + 1 ∧
    ∃ k e, (create_shortcut r true ifs store n exe sd lo tg).2 = store ++ [(k, e)] ∧
      e.AppName = n ∧
      ((create_shortcut r true ifs store n exe sd lo tg).1).2 =
        some (e.appid + 2^32) ∧
      -999999999 ≤ e.appid ∧ e.appid ≤ -100000000 := by
  simp only [create_shortcut, generate_app_id, if_true]
  refine ⟨by trivial, ?_, ?_⟩
  · rw [countName_append]
    simp [countName, list_shortcuts]
  · refine ⟨_, _, rfl, rfl, ?_, ?_, ?_⟩
    · simp
    · simp
      omega
    · simp
      omega

/-- Witness for `create_shortcut_spec` at `r = 123456789` on the empty
store. -/
theorem create_shortcut_spec_witness :
    ((create_shortcut 123456789 true ⟨false, false, []⟩ [] (chars "Foo")
        (chars "/x/m.exe") none (chars "%command%") []).1).1 = true ∧
    countName (create_shortcut 123456789 true ⟨false, false, []⟩ [] (chars "Foo")
        (chars "/x/m.exe") none (chars "%command%") []).2 (chars "Foo") =
      countName ([] : Store) (chars "Foo") + 1 ∧
    ∃ k e, (create_shortcut 123456789 true ⟨false, false, []⟩ [] (chars "Foo")
        (chars "/x/m.exe") none (chars "%command%") []).2 = ([] : Store) ++ [(k, e)] ∧
      e.AppName = chars "Foo" ∧
      ((create_shortcut 123456789 true ⟨false, false, []⟩ [] (chars "Foo")
        (chars "/x/m.exe") none (chars "%command%") []).1).2 =
        some (e.appid + 2^32) ∧
      -999999999 ≤ e.appid ∧ e.appid ≤ -100000000 :=
  create_shortcut_spec 123456789 ⟨false, false, []⟩ [] (chars "Foo")
    (chars "/x/m.exe") none (chars "%command%") [] (by decide) (by decide)

/-! ## C10 theorems -/

theorem countName_cons (kv : List Char × Shortcut) (s : Store) (n : List Char) :
    countName (kv :: s) n =
      (if kv.2.AppName = n then 1 else 0) + countName s n := by
  simp only [countName, list_shortcuts, List.map_cons, List.filter_cons]
  split
  · rename_i h
    simp only [decide_eq_true_eq] at h
    simp [h, Nat.add_comm]
  · rename_i h
    simp only [decide_eq_true_eq] at h
    simp [h]

theorem exists_first_match (store : Store) (n : List Char)
    (h : 1 ≤ countName store n) :
    ∃ pre kv post, store = pre ++ kv :: post ∧ (∀ e ∈ pre, e.2.AppName ≠ n) ∧
      kv.2.AppName = n ∧
      store.find? (fun kv => kv.2.AppName = n) = some kv := by
  induction store with
  | nil => simp [countName, list_shortcuts] at h
  | cons x xs ih =>
    by_cases hx : x.2.AppName = n
    · exact ⟨[], x, xs, rfl, by simp, hx, by simp [List.find?_cons, hx]⟩
    · have h' : 1 ≤ countName xs n := by
        rw [countName_cons, if_neg hx] at h
        omega
      obtain ⟨pre, kv, post, heq, hpre, hkv, hf⟩ := ih h'
      refine ⟨x :: pre, kv, post, by simp [heq], ?_, hkv, by simp [List.find?_cons, hx, hf]⟩
      intro e he
      rcases List.mem_cons.mp he with rfl | he
      exacts [hx, hpre e he]

/-- C10 (confirmed): `remove_shortcut` on a store with several entries of the
same display name deletes exactly the first match in iteration order and
returns `True`, leaving every other entry with that name present; with no
matching entry it returns `False` and performs no write, leaving the store
unchanged whether or not a write could succeed. -/
theorem remove_shortcut_spec (store : Store) (n : List Char)
    (hnodup : (store.map (·.1)).Nodup) :
    ((∀ kv ∈ store, kv.2.AppName ≠ n) →
      ∀ w, remove_shortcut w store n = (false, store)) ∧
    (2 ≤ countName store n →
      ∃ pre kv post, store = pre ++ kv :: post ∧
        (∀ e ∈ pre, e.2.AppName ≠ n) ∧ kv.2.AppName = n ∧
        remove_shortcut true store n = (true, pre ++ post) ∧
        countName (pre ++ post) n = countName store n - 1 ∧
        1 ≤ countName (pre ++ post) n) := by
  constructor
  · intro hno w
    have hf : store.find? (fun kv => kv.2.AppName = n) = none := by
      rw [List.find?_eq_none]
      intro x hx
      simp [hno x hx]
    simp [remove_shortcut, hf]
  · intro h2
    obtain ⟨pre, kv, post, heq, hpre, hkv, hf⟩ :=
      exists_first_match store n (by omega)
    have hkeys : ∀ e ∈ pre, ¬ ((fun e => decide (e.1 = kv.1)) e = true) := by
      intro e he
      simp only [decide_eq_true_eq]
      intro heq1
      have hmem : kv.1 ∈ pre.map (·.1) := by
        rw [← heq1]
        exact List.mem_map_of_mem _ he
      rw [heq, List.map_append] at hnodup
      have hdisj := (List.nodup_append.mp hnodup).2.2
      exact hdisj hmem (List.mem_map_of_mem _ (List.mem_cons_self kv post))
    have herase : store.eraseP (fun e => e.1 = kv.1) = pre ++ post := by
      rw [heq, List.eraseP_append_right _ hkeys, List.eraseP_cons_of_pos (by simp)]
    have hp0 : countName pre n = 0 := by
      have hfe : (list_shortcuts pre).filter (fun kv => kv.2 = n) = [] := by
        rw [List.filter_eq_nil_iff]
        intro a ha
        simp only [list_shortcuts, List.mem_map] at ha
        obtain ⟨e, he, rfl⟩ := ha
        simp [hpre e he]
      simp [countName, hfe]
    have hcnt : countName store n = 1 + countName post n := by
      rw [heq, countName_append, countName_cons, if_pos hkv, hp0]
      omega
    refine ⟨pre, kv, post, heq, hpre, hkv, ?_, ?_, ?_⟩
    · simp only [remove_shortcut, hf, herase, if_true]
    · rw [countName_append, hp0, hcnt]
      omega
    · rw [countName_append, hp0]
      rw [hcnt] at h2
      omega

/-- A minimal shortcut record used as a test fixture. -/
def sampleEntry (id : Int) (name : List Char) : Shortcut :=
  { appid := id, AppName := name, Exe := [], StartDir := [], icon := [],
    ShortcutPath := [], LaunchOptions := [], IsHidden := 0,
    AllowDesktopConfig := 1, AllowOverlay := 1, OpenVR := 0, Devkit := 0,
    DevkitGameID := [], DevkitOverrideAppID := 0, LastPlayTime := 0,
    IsInstalled := 1, FlatpakAppID := [], tags := [] }

/-- A store with two entries both named `Foo`. -/
def sampleStore : Store :=
  [(chars "0", sampleEntry (-5) (chars "Foo")),
   (chars "1", sampleEntry (-6) (chars "Foo"))]

/-- Witness for `remove_shortcut_spec`: on `sampleStore` (two entries named
`Foo`), removing `Foo` deletes only the first entry; removing the unmatched
`Bar` returns `False` with the store untouched. -/
theorem remove_shortcut_spec_witness :
    remove_shortcut true sampleStore (chars "Foo") =
      (true, [(chars "1", sampleEntry (-6) (chars "Foo"))]) ∧
    remove_shortcut true sampleStore (chars "Bar") = (false, sampleStore) := by
  have hB := (remove_shortcut_spec sampleStore (chars "Bar") (by decide)).1
    (by decide) true
  refine ⟨?_, hB⟩
  obtain ⟨pre, kv, post, heq, hpre, hkv, hrem, hcnt, hge⟩ :=
    (remove_shortcut_spec sampleStore (chars "Foo") (by decide)).2 (by decide)
  cases pre with
  | nil =>
    simp only [List.nil_append] at heq hrem
    have h1 : kv = (chars "0", sampleEntry (-5) (chars "Foo")) ∧
        post = [(chars "1", sampleEntry (-6) (chars "Foo"))] := by
      have := heq.symm
      simp only [sampleStore, List.cons.injEq] at this
      exact ⟨this.1, this.2⟩
    rw [hrem, h1.2]
  | cons p pre' =>
    exfalso
    have hp : p = (chars "0", sampleEntry (-5) (chars "Foo")) := by
      have := heq.symm
      simp only [sampleStore, List.cons_append, List.cons.injEq] at this
      exact this.1
    apply hpre p (by simp)
    rw [hp]
    decide

/-! ## Path Translator
    (`WineUtils.edit_binary_working_paths` and `WineUtils.update_executables`
    in `src/jackify/backend/handlers/wine_utils.py`) -/

/-- Python whitespace for `str.strip` / `str.lstrip`. -/
def pyWs (c : Char) : Bool :=
  c = ' ' || c = '\t' || c = nlC || c = Char.ofNat 13 || c = Char.ofNat 11 ||
  c = Char.ofNat 12

/-- Python `str.strip()`. -/
def stripChars (s : List Char) : List Char :=
  ((s.dropWhile pyWs).reverse.dropWhile pyWs).reverse

/-- Python `str.lstrip()`. -/
def lstripChars (s : List Char) : List Char := s.dropWhile pyWs

/-- Python `s.split(c, 1)`: the parts around the first occurrence of `c`. -/
def splitFirst (c : Char) : List Char → Option (List Char × List Char)
  | [] => none
  | x :: r =>
    if x = c then some ([], r)
    else (splitFirst c r).map (fun p => (x :: p.1, p.2))

/-- `s.split(c)[0]` (the whole string when `c` is absent). -/
def takeUntil (c : Char) (s : List Char) : List Char :=
  match splitFirst c s with
  | some p => p.1
  | none => s

/-- Python `s.split(sub, 1)`: parts around the first occurrence of a
substring. -/
def splitFirstSub (needle : List Char) : List Char → Option (List Char × List Char)
  | [] => none
  | x :: r =>
    if needle.isPrefixOf (x :: r) then some ([], (x :: r).drop needle.length)
    else (splitFirstSub needle r).map (fun p => (x :: p.1, p.2))

/-- Python `s.split(c)` (full split). -/
def splitAll (c : Char) (s : List Char) : List (List Char) :=
  s.foldr (fun x acc =>
    match acc with
    | [] => [[x]]
    | h :: t => if x = c then [] :: (h :: t) else (x :: h) :: t) [[]]

/-- `'/'.join parts`. -/
def joinSlashes (parts : List (List Char)) : List Char :=
  List.intercalate ['/'] parts

/-- `s.replace('\\', '\\\\')`: double every backslash. -/
def doubleBackslashes (s : List Char) : List Char :=
  s.foldr (fun c acc => (if c = '\\' then ['\\', '\\'] else [c]) ++ acc) []

/-- `s.replace('/', '\\\\')`: each forward slash becomes two backslashes. -/
def slashesToDoubleBackslashes (s : List Char) : List Char :=
  s.foldr (fun c acc => (if c = '/' then ['\\', '\\'] else [c]) ++ acc) []

/-- Index of the last occurrence of `needle` (as a prefix of a suffix). -/
def lastOccIdx (needle : List Char) : List Char → Option Nat
  | [] => none
  | x :: r =>
    match lastOccIdx needle r with
    | some i => some (i + 1)
    | none => if needle.isPrefixOf (x :: r) then some 0 else none

/-- `re.sub(r'.*' + anchor, anchor, s)` for a greedy `.*`: replace everything
up to and including the last occurrence of `anchor` by `anchor` (unchanged
when absent; the strings handled here have no text after a newline, so the
single-line limit of `.*` is immaterial). -/
def resubStar (anchor s : List Char) : List Char :=
  match lastOccIdx anchor s with
  | some i => anchor ++ s.drop (i + anchor.length)
  | none => s

/-- `os.path.dirname` (POSIX). -/
def osDirname (p : List Char) : List Char :=
  match lastIndexOf p '/' with
  | none => []
  | some i =>
    let head := p.take (i+1)
    if head.all (· = '/') then head else (head.reverse.dropWhile (· = '/')).reverse

/-- `WineUtils._strip_sdcard_path`: strip `/run/media/deck/<volume-id>`. -/
def strip_sdcard_path (path : List Char) : List Char :=
  if (chars "/run/media/deck/").isPrefixOf path then
    let rest := path.drop (chars "/run/media/deck/").length
    match splitFirst '/' rest with
    | some p => '/' :: p.2
    | none => path
  else path

/-- The parameters shared by the two rewrite passes. -/
structure PathParams where
  modlist_dir : List Char
  modlist_sdcard : Bool
  steam_library : List Char
  basegame_sdcard : Bool

/-- A line containing one of the loader executable names
(`re.search(r'skse64_loader\.exe|f4se_loader\.exe', line)`). -/
def isLoaderLine (line : List Char) : Bool :=
  containsSub (chars "skse64_loader.exe") line ||
  containsSub (chars "f4se_loader.exe") line

/-- The path-anchor conventions recognized by the rewrite passes. -/
inductive AnchorType
  | mods
  | stockgame
  | gameroot
  | stockgameCAPS
  | stockfolder
  | skyrimstock
  | stockgamefolder
  | rootskyrimse
  | steamapps
  deriving DecidableEq, Repr

/-- The classification chain shared by `edit_binary_working_paths` (lines
110-173) and `update_executables`: `mods` first; then the stock-game family
gated by `any(term in s for term in [...])` with the inner checks in source
order — `"Stock Game"` is tested before `"Stock Game Folder"`; then
`steamapps`; `none` when nothing matches (the warned `continue` path). -/
def classifyAnchor (s : List Char) : Option AnchorType :=
  if containsSub (chars "mods") s then some .mods
  else if containsSub (chars "Stock Game") s || containsSub (chars "Game Root") s ||
      containsSub (chars "STOCK GAME") s ||
      containsSub (chars "Stock Game Folder") s ||
      containsSub (chars "Stock Folder") s || containsSub (chars "Skyrim Stock") s ||
      containsSub (chars "root/Skyrim Special Edition") s then
    if containsSub (chars "Stock Game") s then some .stockgame
    else if containsSub (chars "Game Root") s then some .gameroot
    else if containsSub (chars "STOCK GAME") s then some .stockgameCAPS
    else if containsSub (chars "Stock Folder") s then some .stockfolder
    else if containsSub (chars "Skyrim Stock") s then some .skyrimstock
    else if containsSub (chars "Stock Game Folder") s then some .stockgamefolder
    else if containsSub (chars "root/Skyrim Special Edition") s then some .rootskyrimse
    else none
  else if containsSub (chars "steamapps") s then some .steamapps
  else none

/-- One computed replacement of a rewrite pass. -/
structure LineEdit where
  bin_path_start : List Char
  path_start : List Char
  full_bin_path : List Char
  new_path : List Char
  deriving DecidableEq, Repr

/-- The per-loader-line computation of `edit_binary_working_paths`: `none`
models every `continue` path (no `=`, or no anchor matched). -/
def ebwpLineEdit (P : PathParams) (orig_line : List Char) : Option LineEdit :=
  match splitFirst '=' orig_line with
  | none => none
  | some bp =>
    let binary_num := bp.1
    let skse_loc := bp.2
    let drive_letter := if P.modlist_sdcard then chars " = D:" else chars " = Z:"
    let just_num := takeUntil '\\' binary_num
    let bin_path_start := doubleBackslashes (stripChars binary_num)
    let path_start := doubleBackslashes (just_num ++ chars "\\\\workingDirectory")
    let modsMiddle :=
      if P.modlist_sdcard then strip_sdcard_path P.modlist_dir else P.modlist_dir
    let finish := fun (drive middle pend bend : List Char) =>
      some { bin_path_start := bin_path_start, path_start := path_start,
             full_bin_path := bin_path_start ++ drive ++ middle ++ bend,
             new_path :=
               slashesToDoubleBackslashes (path_start ++ drive ++ middle ++ pend) }
    match classifyAnchor orig_line with
    | some .mods =>
      finish drive_letter modsMiddle
        (resubStar (chars "/mods") (takeUntil '/' skse_loc))
        (resubStar (chars "/mods") skse_loc)
    | some .stockgame =>
      finish drive_letter modsMiddle
        (resubStar (chars "/Stock Game") (osDirname skse_loc))
        (resubStar (chars "/Stock Game") skse_loc)
    | some .gameroot =>
      finish drive_letter modsMiddle
        (resubStar (chars "/Game Root") (osDirname skse_loc))
        (resubStar (chars "/Game Root") skse_loc)
    | some .stockgameCAPS =>
      finish drive_letter modsMiddle
        (resubStar (chars "/STOCK GAME") (osDirname skse_loc))
        (resubStar (chars "/STOCK GAME") skse_loc)
    | some .stockfolder =>
      finish drive_letter modsMiddle
        (resubStar (chars "/Stock Folder") (osDirname skse_loc))
        (resubStar (chars "/Stock Folder") skse_loc)
    | some .skyrimstock =>
      finish drive_letter modsMiddle
        (resubStar (chars "/Skyrim Stock") (osDirname skse_loc))
        (resubStar (chars "/Skyrim Stock") skse_loc)
    | some .stockgamefolder =>
      -- `path_end = bin_path_end = re.sub('.*(/Stock Game Folder)', ..., skse_loc)`
      finish drive_letter modsMiddle
        (resubStar (chars "/Stock Game Folder") skse_loc)
        (resubStar (chars "/Stock Game Folder") skse_loc)
    | some .rootskyrimse =>
      finish drive_letter modsMiddle ('/' :: lstripChars skse_loc)
        ('/' :: lstripChars skse_loc)
    | some .steamapps =>
      let middle :=
        if P.basegame_sdcard then strip_sdcard_path P.steam_library
        else
          match splitFirstSub (chars "steamapps") P.steam_library with
          | some p => p.1
          | none => P.steam_library
      let drive := if P.basegame_sdcard then chars " = D:" else drive_letter
      finish drive middle
        (resubStar (chars "/steamapps") (osDirname skse_loc))
        (resubStar (chars "/steamapps") skse_loc)
    | none => none

/-- The replacement loop of `edit_binary_working_paths` over all lines for
one computed edit. -/
def applyEdit (e : LineEdit) (content : List (List Char)) : List (List Char) :=
  content.map (fun line =>
    if e.bin_path_start.isPrefixOf line then e.full_bin_path ++ [nlC]
    else if e.path_start.isPrefixOf line then e.new_path ++ [nlC]
    else line)

/-- `WineUtils.edit_binary_working_paths` (pure part, over the file's lines):
`none` models `return False` (no loader entries found); `some content'` is
the content written back with `return True`. -/
def edit_binary_working_paths (P : PathParams) (content : List (List Char)) :
    Option (List (List Char)) :=
  let skse_lines := content.filter isLoaderLine
  if skse_lines.isEmpty then none
  else
    some (skse_lines.foldl (fun acc orig_line =>
      match ebwpLineEdit P orig_line with
      | none => acc
      | some e => applyEdit e acc) content)

end Jackify

namespace Jackify

/-- The per-line computation of `update_executables`.  `none` is the warned
`continue` path (no anchor); `some none` models an uncaught exception
(`IndexError` in the SD-card stripping, or the dead `Stock Game Folder`
branch whose `bin_path_end` is unbound); `some (some e)` is a computed
edit. -/
def ueLineEdit (P : PathParams) (line : List Char) : Option (Option LineEdit) :=
  let stripped := stripChars line
  let binary_path :=
    match splitFirst '=' stripped with
    | some p => p.2
    | none => []
  let binary_num :=
    match splitFirst '=' stripped with
    | some p => p.1
    | none => []
  let justnum := takeUntil '\\' binary_num
  let bin_path_start := doubleBackslashes binary_num
  let path_start := doubleBackslashes (justnum ++ chars "\\workingDirectory")
  let sdMiddle := fun (dir : List Char) =>
    let pm :=
      match splitFirstSub (chars "mmcblk0p1") dir with
      | some p => p.2
      | none => dir
    if containsSub (chars "/run/media/") pm then
      match splitFirstSub (chars "/run/media/") pm with
      | some p =>
        match splitFirst '/' p.2 with
        | some q =>
          match splitFirst '/' q.2 with
          | some r => some ('/' :: r.2)
          | none => none
        | none => none
      | none => none
    else some pm
  let modsMiddle : Option (List Char) :=
    if P.modlist_sdcard then sdMiddle P.modlist_dir else some P.modlist_dir
  let pathEnds := fun (sep : List Char) =>
    match splitFirstSub sep binary_path with
    | some p =>
      ('/' :: joinSlashes ((splitAll '/' p.2).dropLast),
       '/' :: joinSlashes (splitAll '/' p.2))
    | none => ([], [])
  let finish := fun (drive : List Char) (middle : Option (List Char))
      (pend bend : List Char) =>
    match middle with
    | none => some none
    | some m =>
      some (some
        { bin_path_start := bin_path_start, path_start := path_start,
          full_bin_path := bin_path_start ++ '=' :: (drive ++ m ++ bend),
          new_path :=
            slashesToDoubleBackslashes (path_start ++ '=' :: (drive ++ m ++ pend)) })
  let drive_letter := if P.modlist_sdcard then chars "D:" else chars "Z:"
  match classifyAnchor binary_path with
  | some .mods =>
    let pe := pathEnds (chars "/mods/")
    finish drive_letter modsMiddle pe.1 pe.2
  | some .stockgame =>
    let pe := pathEnds (chars "/Stock Game/")
    finish drive_letter modsMiddle pe.1 pe.2
  | some .gameroot =>
    let pe := pathEnds (chars "/Game Root/")
    finish drive_letter modsMiddle pe.1 pe.2
  | some .stockgameCAPS =>
    let pe := pathEnds (chars "/STOCK GAME/")
    finish drive_letter modsMiddle pe.1 pe.2
  | some .stockfolder =>
    let pe := pathEnds (chars "/Stock Folder/")
    finish drive_letter modsMiddle pe.1 pe.2
  | some .skyrimstock =>
    let pe := pathEnds (chars "/Skyrim Stock/")
    finish drive_letter modsMiddle pe.1 pe.2
  | some .stockgamefolder =>
    -- unreachable: shadowed by `Stock Game`; the branch leaves
    -- `bin_path_end` unbound (a `NameError` on a fresh loop)
    some none
  | some .rootskyrimse =>
    let suffix :=
      match splitFirstSub (chars "root/Skyrim Special Edition") binary_path with
      | some p => p.2
      | none => []
    finish drive_letter modsMiddle ('/' :: suffix) ('/' :: suffix)
  | some .steamapps =>
    let middle : Option (List Char) :=
      if P.basegame_sdcard then
        match splitFirstSub (chars "mmcblk0p1") P.steam_library with
        | some p => some p.2
        | none => some P.steam_library
      else
        match splitFirstSub (chars "steamapps") P.steam_library with
        | some p => some p.1
        | none => some P.steam_library
    let drive := if P.basegame_sdcard then chars "D:" else drive_letter
    let pe := pathEnds (chars "/steamapps/")
    finish drive middle pe.1 pe.2
  | none => none

/-- Replace the first line starting with `pfx` (the `break`-ing inner loop of
`update_executables`). -/
def setFirstPrefix (pfx repl : List Char) : List (List Char) → List (List Char)
  | [] => []
  | l :: ls => if pfx.isPrefixOf l then repl :: ls else l :: setFirstPrefix pfx repl ls

/-- The `for i, line in enumerate(lines)` loop of `update_executables`,
mutating `lines` as it goes; `fuel` counts the remaining indices. -/
def ueLoop (P : PathParams) : Nat → Nat → List (List Char) →
    Option (List (List Char))
  | 0, _, lines => some lines
  | fuel+1, i, lines =>
    match lines.get? i with
    | none => some lines
    | some line =>
      if isLoaderLine line then
        match ueLineEdit P line with
        | none => ueLoop P fuel (i+1) lines
        | some none => none
        | some (some e) =>
          let lines1 := lines.set i (e.full_bin_path ++ [nlC])
          let lines2 := setFirstPrefix e.path_start (e.new_path ++ [nlC]) lines1
          ueLoop P fuel (i+1) lines2
      else ueLoop P fuel (i+1) lines

/-- `WineUtils.update_executables` (pure part): `none` models the exception
path (`return False`); `some lines'` is the content written back with
`return True`. -/
def update_executables (P : PathParams) (lines : List (List Char)) :
    Option (List (List Char)) :=
  ueLoop P lines.length 0 lines

/-! ## C6 theorems -/

/-- C6 (counterexample): the spec's path-rewrite scenario line ends in
`bar.exe`, which is not one of the recognized loader executables, so neither
rewrite pass touches it: `update_executables` returns the file unchanged and
`edit_binary_working_paths` reports failure (no loader entries); in
particular the claimed output line is never produced.  And even for the
recognized-loader variant of the same line the claimed escaped-backslash
form is not produced: `update_executables` rewrites the binary value keeping
its forward slashes (only the `workingDirectory` value gets the backslash
conversion), doubles the key's backslash, and drops the path up to the
`mods` segment; `edit_binary_working_paths` reports success yet changes
nothing, since its replacement loop only matches lines that already start
with the doubled-backslash key. -/
theorem path_rewrite_bar_exe_untouched :
    update_executables ⟨chars "/home/user/Games/Inst", false, chars "/sl", false⟩
      [chars "3\\binary=/home/user/Games/Inst/mods/Foo/bar.exe\n"] =
      some [chars "3\\binary=/home/user/Games/Inst/mods/Foo/bar.exe\n"] ∧
    edit_binary_working_paths ⟨chars "/home/user/Games/Inst", false, chars "/sl", false⟩
      [chars "3\\binary=/home/user/Games/Inst/mods/Foo/bar.exe\n"] = none ∧
    chars "3\\binary=/home/user/Games/Inst/mods/Foo/bar.exe\n" ≠
      chars "3\\binary=Z:\\\\home\\\\user\\\\Games\\\\Inst\\\\mods\\\\Foo\\\\bar.exe" ++
        [nlC] ∧
    update_executables ⟨chars "/home/user/Games/Inst", false, chars "/sl", false⟩
      [chars "3\\binary=/home/user/Games/Inst/mods/Foo/skse64_loader.exe\n"] =
      some [chars "3\\\\binary=Z:/home/user/Games/Inst/Foo/skse64_loader.exe\n"] ∧
    chars "3\\\\binary=Z:/home/user/Games/Inst/Foo/skse64_loader.exe\n" ≠
      chars
        "3\\binary=Z:\\\\home\\\\user\\\\Games\\\\Inst\\\\mods\\\\Foo\\\\skse64_loader.exe"
        ++ [nlC] ∧
    edit_binary_working_paths ⟨chars "/home/user/Games/Inst", false, chars "/sl", false⟩
      [chars "3\\binary=/home/user/Games/Inst/mods/Foo/skse64_loader.exe\n"] =
      some [chars "3\\binary=/home/user/Games/Inst/mods/Foo/skse64_loader.exe\n"] := by
  refine ⟨by decide, by decide, by decide, by decide, by decide, by decide⟩

theorem ueLoop_no_loader (P : PathParams) : ∀ fuel i lines,
    (∀ l ∈ lines, isLoaderLine l = false) →
    ueLoop P fuel i lines = some lines := by
  intro fuel
  induction fuel with
  | zero => intro i lines _; rfl
  | succ fuel ih =>
    intro i lines h
    rw [ueLoop]
    cases hg : lines.get? i with
    | none => rfl
    | some line =>
      have hl : isLoaderLine line = false := h line (List.get?_mem hg)
      simp only [hl, Bool.false_eq_true, reduceIte]
      exact ih (i+1) lines h

/-- C6 (amended): a config line whose value does not contain one of the
recognized loader executable names (`skse64_loader.exe`, `f4se_loader.exe`)
is never rewritten: when no line matches, `update_executables` returns the
file byte-for-byte unchanged and `edit_binary_working_paths` returns failure
without modifying anything; no drive-letter rewriting happens for such
lines. -/
theorem no_loader_line_not_rewritten (P : PathParams) (content : List (List Char))
    (h : ∀ l ∈ content, isLoaderLine l = false) :
    update_executables P content = some content ∧
    edit_binary_working_paths P content = none := by
  constructor
  · exact ueLoop_no_loader P content.length 0 content h
  · have hf : content.filter isLoaderLine = [] := by
      rw [List.filter_eq_nil_iff]
      intro a ha
      simp [h a ha]
    simp [edit_binary_working_paths, hf]

/-- Witness for `no_loader_line_not_rewritten` on the spec scenario's
config. -/
theorem no_loader_line_not_rewritten_witness :
    update_executables ⟨chars "/m", false, chars "/sl", false⟩
      [chars "3\\binary=/m/mods/Foo/bar.exe\n"] =
      some [chars "3\\binary=/m/mods/Foo/bar.exe\n"] ∧
    edit_binary_working_paths ⟨chars "/m", false, chars "/sl", false⟩
      [chars "3\\binary=/m/mods/Foo/bar.exe\n"] = none :=
  no_loader_line_not_rewritten ⟨chars "/m", false, chars "/sl", false⟩
    [chars "3\\binary=/m/mods/Foo/bar.exe\n"] (by decide)

/-! ## C7 theorems -/

/-- C7 (counterexample): a loader line under a `Stock Game Folder` directory
is classified as the more general `Stock Game` anchor: in the fixed check
order `"Stock Game"` is tested before `"Stock Game Folder"`, so the more
specific anchor **is** shadowed by the general one that is its substring.
And in a mixed config the untouched-when-unmatched property fails too: the
second line below contains no anchor and no loader name, yet the first
(matched) line's replacement loop rewrites it, because it happens to start
with that line's doubled-backslash key. -/
theorem stock_game_folder_shadowed :
    containsSub (chars "Stock Game Folder")
      (chars "3\\binary=/x/Stock Game Folder/skse64_loader.exe\n") = true ∧
    isLoaderLine (chars "3\\binary=/x/Stock Game Folder/skse64_loader.exe\n") = true ∧
    classifyAnchor (chars "3\\binary=/x/Stock Game Folder/skse64_loader.exe\n") =
      some .stockgame ∧
    some AnchorType.stockgame ≠ some AnchorType.stockgamefolder ∧
    isLoaderLine (chars "1\\\\binary=X\n") = false ∧
    classifyAnchor (chars "1\\\\binary=X\n") = none ∧
    edit_binary_working_paths ⟨chars "/m", false, chars "/sl", false⟩
      [chars "1\\binary=/x/mods/skse64_loader.exe\n", chars "1\\\\binary=X\n"] =
      some [chars "1\\binary=/x/mods/skse64_loader.exe\n",
            chars "1\\\\binary = Z:/m/mods/skse64_loader.exe\n\n"] ∧
    chars "1\\\\binary = Z:/m/mods/skse64_loader.exe\n\n" ≠
      chars "1\\\\binary=X\n" := by
  refine ⟨by decide, by decide, by decide, by decide, by decide, by decide,
    by decide, by decide⟩

theorem containsSub_of_isPrefixOf (a b s : List Char) (hab : a.isPrefixOf b = true)
    (h : containsSub b s = true) : containsSub a s = true := by
  simp only [containsSub, List.any_eq_true] at h ⊢
  obtain ⟨t, ht, hp⟩ := h
  refine ⟨t, ht, ?_⟩
  have h1 := List.isPrefixOf_iff_prefix.mp hab
  have h2 := List.isPrefixOf_iff_prefix.mp hp
  exact List.isPrefixOf_iff_prefix.mpr (h1.trans h2)

theorem ebwpLineEdit_none (P : PathParams) (l : List Char)
    (h : classifyAnchor l = none) : ebwpLineEdit P l = none := by
  unfold ebwpLineEdit
  cases hs : splitFirst '=' l with
  | none => rfl
  | some bp => simp [h]

/-- C7 (amended): each line gets at most one classification, and a line is
unclassifiable exactly when none of the anchor substrings occurs in it; a
config all of whose lines are unclassifiable is left byte-for-byte untouched
by `edit_binary_working_paths` (success is still reported when a loader line
was found); but the fixed priority order tests `"Stock Game"` before
`"Stock Game Folder"`, so a line containing the more specific anchor (and not
`mods`) is classified under the general `Stock Game` anchor — the specific
anchor is shadowed. -/
theorem anchor_classification_spec (P : PathParams) (content : List (List Char))
    (l s : List Char)
    (hcontent : ∀ x ∈ content, classifyAnchor x = none)
    (hm : containsSub (chars "mods") s = false)
    (hsgf : containsSub (chars "Stock Game Folder") s = true) :
    (classifyAnchor l = none ↔
      (containsSub (chars "mods") l = false ∧
       containsSub (chars "Stock Game") l = false ∧
       containsSub (chars "Game Root") l = false ∧
       containsSub (chars "STOCK GAME") l = false ∧
       containsSub (chars "Stock Folder") l = false ∧
       containsSub (chars "Skyrim Stock") l = false ∧
       containsSub (chars "Stock Game Folder") l = false ∧
       containsSub (chars "root/Skyrim Special Edition") l = false ∧
       containsSub (chars "steamapps") l = false)) ∧
    edit_binary_working_paths P content =
      (if content.any isLoaderLine then some content else none) ∧
    classifyAnchor s = some .stockgame := by
  refine ⟨?_, ?_, ?_⟩
  · unfold classifyAnchor
    split_ifs <;> simp_all
  · have hfold : ∀ (ls : List (List Char)) (acc : List (List Char)),
        (∀ x ∈ ls, ebwpLineEdit P x = none) →
        ls.foldl (fun acc orig_line =>
          match ebwpLineEdit P orig_line with
          | none => acc
          | some e => applyEdit e acc) acc = acc := by
      intro ls
      induction ls with
      | nil => intro acc _; rfl
      | cons x xs ih =>
        intro acc hx
        rw [List.foldl_cons, hx x (by simp)]
        exact ih acc (fun y hy => hx y (by simp [hy]))
    unfold edit_binary_working_paths
    by_cases hany : content.any isLoaderLine = true
    · have hne : (content.filter isLoaderLine).isEmpty = false := by
        obtain ⟨x, hx, hl⟩ := List.any_eq_true.mp hany
        have hmem : x ∈ content.filter isLoaderLine := List.mem_filter.mpr ⟨hx, hl⟩
        cases hfe : content.filter isLoaderLine with
        | nil => rw [hfe] at hmem; simp at hmem
        | cons a as => rfl
      simp only [hne, Bool.false_eq_true, reduceIte, hany, if_true]
      rw [hfold _ content
        (fun y hy => ebwpLineEdit_none P y (hcontent y (List.mem_of_mem_filter hy)))]
    · have hemp : (content.filter isLoaderLine).isEmpty = true := by
        have hno : ∀ x ∈ content, ¬ isLoaderLine x = true := by
          intro x hx hl
          exact hany (List.any_eq_true.mpr ⟨x, hx, hl⟩)
        rw [List.isEmpty_iff, List.filter_eq_nil_iff]
        exact hno
      simp only [hemp, if_true, hany, Bool.false_eq_true, reduceIte]
  · have hsg : containsSub (chars "Stock Game") s = true :=
      containsSub_of_isPrefixOf (chars "Stock Game") (chars "Stock Game Folder") s
        (by decide) hsgf
    simp [classifyAnchor, hm, hsg]

/-- Witness for `anchor_classification_spec`: an anchor-free one-line config
and a `Stock Game Folder` loader line. -/
theorem anchor_classification_spec_witness :
    (classifyAnchor (chars "3\\binary=/x/other/skse64_loader.exe\n") = none ↔
      (containsSub (chars "mods") (chars "3\\binary=/x/other/skse64_loader.exe\n") = false ∧
       containsSub (chars "Stock Game") (chars "3\\binary=/x/other/skse64_loader.exe\n") = false ∧
       containsSub (chars "Game Root") (chars "3\\binary=/x/other/skse64_loader.exe\n") = false ∧
       containsSub (chars "STOCK GAME") (chars "3\\binary=/x/other/skse64_loader.exe\n") = false ∧
       containsSub (chars "Stock Folder") (chars "3\\binary=/x/other/skse64_loader.exe\n") = false ∧
       containsSub (chars "Skyrim Stock") (chars "3\\binary=/x/other/skse64_loader.exe\n") = false ∧
       containsSub (chars "Stock Game Folder") (chars "3\\binary=/x/other/skse64_loader.exe\n") = false ∧
       containsSub (chars "root/Skyrim Special Edition") (chars "3\\binary=/x/other/skse64_loader.exe\n") = false ∧
       containsSub (chars "steamapps") (chars "3\\binary=/x/other/skse64_loader.exe\n") = false)) ∧
    edit_binary_working_paths ⟨chars "/m", false, chars "/sl", false⟩
      [chars "3\\binary=/x/other/skse64_loader.exe\n"] =
      (if [chars "3\\binary=/x/other/skse64_loader.exe\n"].any isLoaderLine then
        some [chars "3\\binary=/x/other/skse64_loader.exe\n"] else none) ∧
    classifyAnchor (chars "4\\binary=/x/Stock Game Folder/f4se_loader.exe\n") =
      some .stockgame :=
  anchor_classification_spec ⟨chars "/m", false, chars "/sl", false⟩
    [chars "3\\binary=/x/other/skse64_loader.exe\n"]
    (chars "3\\binary=/x/other/skse64_loader.exe\n")
    (chars "4\\binary=/x/Stock Game Folder/f4se_loader.exe\n")
    (by decide) (by decide) (by decide)

/-! ## Runtime Resolver
    (`WineUtils.find_proton_binary` in
    `src/jackify/backend/handlers/wine_utils.py`) -/

/-- The file system visible to runtime discovery: which paths are files, and
each directory's subdirectory names (in listing order, as `Path.glob`
enumerates them). -/
structure ProtonFS where
  files : List (List Char)
  dirs : List (List Char × List (List Char))

/-- `Path.is_file`. -/
def ProtonFS.isFile (fs : ProtonFS) (p : List Char) : Bool := fs.files.contains p

/-- `Path.is_dir`. -/
def ProtonFS.isDir (fs : ProtonFS) (p : List Char) : Bool :=
  (fs.dirs.find? (fun kv => kv.1 = p)).isSome

/-- Directory listing (empty for a missing directory, as `Path.glob` yields
nothing there). -/
def ProtonFS.listdir (fs : ProtonFS) (p : List Char) : List (List Char) :=
  match fs.dirs.find? (fun kv => kv.1 = p) with
  | some kv => kv.2
  | none => []

/-- The three standard Steam library locations. -/
def steam_common_paths (home : List Char) : List (List Char) :=
  [home ++ chars "/.steam/steam/steamapps/common",
   home ++ chars "/.local/share/Steam/steamapps/common",
   home ++ chars "/.steam/root/steamapps/common"]

/-- `base / name / "files/bin/wine"`. -/
def shimPath (base name : List Char) : List Char :=
  base ++ '/' :: (name ++ chars "/files/bin/wine")

/-- `version_patterns`: the label itself, spaces→underscores, spaces
removed. -/
def version_patterns (v : List Char) : List (List Char) :=
  [v, v.map (fun c => if c = ' ' then '_' else c), v.filter (fun c => ¬ (c = ' '))]

/-- The Proton-9 special case of `find_proton_binary`: per base, try the two
known directory spellings, then any `Proton 9*` directory. -/
def fpbSpecial (fs : ProtonFS) (home version : List Char) : Option (List Char) :=
  if (chars "Proton 9").isPrefixOf (stripChars version) then
    (steam_common_paths home).findSome? (fun base =>
      match ([chars "Proton 9.0", chars "Proton 9.0 (Beta)"]).findSome? (fun name =>
          if fs.isFile (shimPath base name) then some (shimPath base name) else none) with
      | some y => some y
      | none =>
        ((fs.listdir base).filter (fun d => (chars "Proton 9").isPrefixOf d)).findSome?
          (fun d => if fs.isFile (shimPath base d) then some (shimPath base d) else none))
  else none

/-- The general case: per existing base, per pattern, a direct directory
match then a `*pattern*` glob (substring over the listing; the labels used
here contain no glob metacharacters). -/
def fpbGeneral (fs : ProtonFS) (home version : List Char) : Option (List Char) :=
  (steam_common_paths home).findSome? (fun base =>
    if fs.isDir base then
      (version_patterns version).findSome? (fun pattern =>
        match (if fs.isFile (shimPath base pattern) then some (shimPath base pattern)
               else none) with
        | some y => some y
        | none =>
          ((fs.listdir base).filter (fun d => containsSub pattern d)).findSome?
            (fun d => if fs.isFile (shimPath base d) then some (shimPath base d) else none))
    else none)

/-- The `Proton - Experimental` fallback (logged with a warning). -/
def fpbFallback (fs : ProtonFS) (home : List Char) : Option (List Char) :=
  (steam_common_paths home).findSome? (fun base =>
    if fs.isFile (shimPath base (chars "Proton - Experimental")) then
      some (shimPath base (chars "Proton - Experimental"))
    else none)

/-- `WineUtils.find_proton_binary`: the special Proton-9 probe falls through
into the general search, which falls through into the Experimental fallback;
`none` is the final `return None`. -/
def find_proton_binary (fs : ProtonFS) (home version : List Char) :
    Option (List Char) :=
  match fpbSpecial fs home version with
  | some y => some y
  | none =>
    match fpbGeneral fs home version with
    | some y => some y
    | none => fpbFallback fs home

/-! ## findSome? lemmas -/

theorem findSome?_eq_none_of {α β : Type} (f : α → Option β) :
    ∀ l : List α, (∀ a ∈ l, f a = none) → l.findSome? f = none := by
  intro l
  induction l with
  | nil => intro _; rfl
  | cons x xs ih =>
    intro h
    rw [List.findSome?_cons, h x (by simp)]
    exact ih (fun a ha => h a (by simp [ha]))

theorem findSome?_forall_none {α β : Type} (f : α → Option β) :
    ∀ l : List α, l.findSome? f = none → ∀ a ∈ l, f a = none := by
  intro l
  induction l with
  | nil => intro _ a ha; simp at ha
  | cons x xs ih =>
    intro h a ha
    rw [List.findSome?_cons] at h
    cases hfx : f x with
    | some y =>
      rw [hfx] at h
      have h2 : (some y : Option β) = none := h
      cases h2
    | none =>
      rw [hfx] at h
      have h2 : List.findSome? f xs = none := h
      rcases List.mem_cons.mp ha with rfl | ha
      · exact hfx
      · exact ih h2 a ha

theorem findSome?_exists_of_eq_some {α β : Type} (f : α → Option β) :
    ∀ (l : List α) (y : β), l.findSome? f = some y → ∃ a ∈ l, f a = some y := by
  intro l
  induction l with
  | nil => intro y h; simp [List.findSome?] at h
  | cons x xs ih =>
    intro y h
    rw [List.findSome?_cons] at h
    cases hfx : f x with
    | some z =>
      rw [hfx] at h
      have h2 : (some z : Option β) = some y := h
      refine ⟨x, by simp, ?_⟩
      rw [hfx]
      exact h2
    | none =>
      rw [hfx] at h
      have h2 : List.findSome? f xs = some y := h
      obtain ⟨a, ha, hfa⟩ := ih y h2
      exact ⟨a, by simp [ha], hfa⟩

theorem findSome?_isSome_of_mem {α β : Type} (f : α → Option β) :
    ∀ (l : List α) (a : α), a ∈ l → (f a).isSome → (l.findSome? f).isSome := by
  intro l
  induction l with
  | nil => intro a ha; simp at ha
  | cons x xs ih =>
    intro a ha hs
    rw [List.findSome?_cons]
    cases hfx : f x with
    | some y => rfl
    | none =>
      rcases List.mem_cons.mp ha with rfl | ha
      · rw [hfx] at hs
        simp at hs
      · show (List.findSome? f xs).isSome = true
        exact ih a ha hs

/-! ## C8 theorem -/

/-- C8 (confirmed): requesting `Proton 9.0` when no `Proton 9.0` directory
has a shim but a `Proton 9.0 (Beta)` one does (and no other `Proton 9*`
directory exists) resolves to the Beta directory\'s shim; and for any label
for which no probe matches (neither the Proton-9 special candidates nor any
direct/glob pattern match), resolution equals the `Proton - Experimental`
fallback probe and returns `none` exactly when even that fallback is absent
from every root. -/
theorem find_proton_binary_spec (fs : ProtonFS) (home : List Char) :
    ((∀ b ∈ steam_common_paths home,
        fs.isFile (shimPath b (chars "Proton 9.0")) = false) →
     (∀ b ∈ steam_common_paths home, ∀ d ∈ fs.listdir b,
        (chars "Proton 9").isPrefixOf d = true → d = chars "Proton 9.0 (Beta)") →
     (∃ b ∈ steam_common_paths home,
        fs.isFile (shimPath b (chars "Proton 9.0 (Beta)")) = true) →
     ∃ b ∈ steam_common_paths home,
       find_proton_binary fs home (chars "Proton 9.0") =
         some (shimPath b (chars "Proton 9.0 (Beta)"))) ∧
    (∀ version,
     (∀ b ∈ steam_common_paths home,
        fs.isFile (shimPath b (chars "Proton 9.0")) = false ∧
        fs.isFile (shimPath b (chars "Proton 9.0 (Beta)")) = false ∧
        ∀ d ∈ fs.listdir b, (chars "Proton 9").isPrefixOf d = true →
          fs.isFile (shimPath b d) = false) →
     (∀ b ∈ steam_common_paths home, ∀ pat ∈ version_patterns version,
        fs.isFile (shimPath b pat) = false ∧
        ∀ d ∈ fs.listdir b, containsSub pat d = true →
          fs.isFile (shimPath b d) = false) →
     (find_proton_binary fs home version = fpbFallback fs home ∧
      (find_proton_binary fs home version = none ↔
        ∀ b ∈ steam_common_paths home,
          fs.isFile (shimPath b (chars "Proton - Experimental")) = false))) := by
  have hfall : ∀ version,
      fpbSpecial fs home version = none → fpbGeneral fs home version = none →
      find_proton_binary fs home version = fpbFallback fs home := by
    intro version hs hg
    unfold find_proton_binary
    rw [hs, hg]
  constructor
  · intro h90 honly hbeta
    obtain ⟨b0, hb0, hfile0⟩ := hbeta
    have hcond : (chars "Proton 9").isPrefixOf (stripChars (chars "Proton 9.0")) = true := by
      decide
    have hsome : (fpbSpecial fs home (chars "Proton 9.0")).isSome := by
      unfold fpbSpecial
      rw [if_pos hcond]
      apply findSome?_isSome_of_mem _ _ b0 hb0
      rw [List.findSome?_cons, if_neg (by simp [h90 b0 hb0]),
        List.findSome?_cons, if_pos hfile0]
      rfl
    obtain ⟨y, hy⟩ := Option.isSome_iff_exists.mp hsome
    have hy2 : (steam_common_paths home).findSome? (fun base =>
        match ([chars "Proton 9.0", chars "Proton 9.0 (Beta)"]).findSome? (fun name =>
            if fs.isFile (shimPath base name) then some (shimPath base name) else none) with
        | some z => some z
        | none =>
          ((fs.listdir base).filter (fun d => (chars "Proton 9").isPrefixOf d)).findSome?
            (fun d => if fs.isFile (shimPath base d) then some (shimPath base d)
                      else none)) = some y := by
      have := hy
      unfold fpbSpecial at this
      rw [if_pos hcond] at this
      exact this
    obtain ⟨b, hb, hfb⟩ := findSome?_exists_of_eq_some _ _ y hy2
    have hyval : y = shimPath b (chars "Proton 9.0 (Beta)") := by
      cases hcand : ([chars "Proton 9.0", chars "Proton 9.0 (Beta)"]).findSome?
          (fun name =>
            if fs.isFile (shimPath b name) then some (shimPath b name) else none) with
      | some z =>
        rw [hcand] at hfb
        simp only [Option.some.injEq] at hfb
        obtain ⟨name, hname, hz⟩ := findSome?_exists_of_eq_some _ _ z hcand
        rcases List.mem_cons.mp hname with rfl | hname
        · rw [if_neg (by simp [h90 b hb])] at hz
          simp at hz
        · rcases List.mem_cons.mp hname with rfl | hname
          · by_cases hf : fs.isFile (shimPath b (chars "Proton 9.0 (Beta)")) = true
            · rw [if_pos hf] at hz
              simp only [Option.some.injEq] at hz
              rw [← hfb, ← hz]
            · rw [if_neg hf] at hz
              simp at hz
          · simp at hname
      | none =>
        rw [hcand] at hfb
        obtain ⟨d, hd, hfd⟩ := findSome?_exists_of_eq_some _ _ y hfb
        obtain ⟨hdl, hdp⟩ := List.mem_filter.mp hd
        have hdeq := honly b hb d hdl hdp
        subst hdeq
        by_cases hf : fs.isFile (shimPath b (chars "Proton 9.0 (Beta)")) = true
        · rw [if_pos hf] at hfd
          simp only [Option.some.injEq] at hfd
          rw [← hfd]
        · rw [if_neg hf] at hfd
          simp at hfd
    refine ⟨b, hb, ?_⟩
    unfold find_proton_binary
    have hsp : fpbSpecial fs home (chars "Proton 9.0") = some y := hy
    rw [hsp, hyval]
  · intro version hb1 hb2
    have hs : fpbSpecial fs home version = none := by
      unfold fpbSpecial
      by_cases hc : (chars "Proton 9").isPrefixOf (stripChars version) = true
      · rw [if_pos hc]
        apply findSome?_eq_none_of
        intro b hb
        have hcand : ([chars "Proton 9.0", chars "Proton 9.0 (Beta)"]).findSome?
            (fun name =>
              if fs.isFile (shimPath b name) then some (shimPath b name) else none) =
            none := by
          apply findSome?_eq_none_of
          intro name hname
          rcases List.mem_cons.mp hname with rfl | hname
          · rw [if_neg (by simp [(hb1 b hb).1])]
          · rcases List.mem_cons.mp hname with rfl | hname
            · rw [if_neg (by simp [(hb1 b hb).2.1])]
            · simp at hname
        rw [hcand]
        apply findSome?_eq_none_of
        intro d hd
        obtain ⟨hdl, hdp⟩ := List.mem_filter.mp hd
        rw [if_neg (by simp [(hb1 b hb).2.2 d hdl hdp])]
      · rw [if_neg hc]
    have hg : fpbGeneral fs home version = none := by
      unfold fpbGeneral
      apply findSome?_eq_none_of
      intro b hb
      by_cases hdir : fs.isDir b = true
      · rw [if_pos hdir]
        apply findSome?_eq_none_of
        intro pat hpat
        have hdirect : (if fs.isFile (shimPath b pat) then some (shimPath b pat)
            else none) = none := by
          rw [if_neg (by simp [(hb2 b hb pat hpat).1])]
        rw [hdirect]
        apply findSome?_eq_none_of
        intro d hd
        obtain ⟨hdl, hdp⟩ := List.mem_filter.mp hd
        rw [if_neg (by simp [(hb2 b hb pat hpat).2 d hdl hdp])]
      · rw [if_neg hdir]
    refine ⟨hfall version hs hg, ?_⟩
    rw [hfall version hs hg]
    constructor
    · intro hnone b hb
      have := findSome?_forall_none _ _ hnone b hb
      by_cases hf : fs.isFile (shimPath b (chars "Proton - Experimental")) = true
      · rw [if_pos hf] at this
        simp at this
      · simpa using hf
    · intro hall
      apply findSome?_eq_none_of
      intro b hb
      rw [if_neg (by simp [hall b hb])]

/-- A filesystem fixture: only `Proton 9.0 (Beta)` is installed, under the
first Steam library root, and no `Proton - Experimental` exists. -/
def protonSampleFS : ProtonFS :=
  { files := [shimPath (chars "/h" ++ chars "/.steam/steam/steamapps/common")
      (chars "Proton 9.0 (Beta)")],
    dirs := [(chars "/h" ++ chars "/.steam/steam/steamapps/common",
      [chars "Proton 9.0 (Beta)"])] }

/-- The empty filesystem: no runtime at all. -/
def protonEmptyFS : ProtonFS := { files := [], dirs := [] }

/-- Witness for `find_proton_binary_spec`: on `protonSampleFS` the request
for `Proton 9.0` resolves to the Beta shim; on the empty filesystem an
unmatched label falls through to the (absent) fallback, yielding `none`. -/
theorem find_proton_binary_spec_witness :
    find_proton_binary protonSampleFS (chars "/h") (chars "Proton 9.0") =
      some (shimPath (chars "/h" ++ chars "/.steam/steam/steamapps/common")
        (chars "Proton 9.0 (Beta)")) ∧
    find_proton_binary protonEmptyFS (chars "/h") (chars "zzz") = none := by
  constructor
  · obtain ⟨h1, _⟩ := find_proton_binary_spec protonSampleFS (chars "/h")
    obtain ⟨b, hb, heq⟩ := h1 (by decide) (by decide)
      ⟨chars "/h" ++ chars "/.steam/steam/steamapps/common", by decide, by decide⟩
    rcases List.mem_cons.mp hb with rfl | hb
    · exact heq
    · rcases List.mem_cons.mp hb with rfl | hb
      · exact absurd heq (by decide)
      · rcases List.mem_cons.mp hb with rfl | hb
        · exact absurd heq (by decide)
        · simp at hb
  · obtain ⟨_, h2⟩ := find_proton_binary_spec protonEmptyFS (chars "/h")
    exact (h2 (chars "zzz") (by decide) (by decide)).2.mpr (by decide)

/-! ## Supervised cancellation
    (`ProcessManager.cancel` in
    `src/jackify/backend/handlers/subprocess_utils.py`) -/

/-- The signals a `cancel` call can cause to be delivered:
`Popen.terminate` (SIGTERM), `Popen.kill` (SIGKILL), the
`os.killpg(..., SIGKILL)` on the process group, and a last-resort
`pkill -f` run. -/
inductive Sig where
  | sigterm : Sig
  | sigkill : Sig
  | groupkill : Sig
  | pkillRun : Sig
deriving DecidableEq

/-- State of a supervised process: whether the underlying process has
stopped, whether its exit status has been collected (`returncode` set by a
`poll`/`wait`), and the log of signals delivered to it so far. -/
structure SupState where
  exited : Bool
  reaped : Bool
  sent : List Sig
deriving DecidableEq

/-- `Popen.send_signal` (CPython, used by `terminate` and `kill`): it runs
`self.poll()` first and issues `os.kill` only when `returncode` is still
`None`, so a process that has already stopped is merely reaped and receives
no signal. -/
def send_signal (s : Sig) (st : SupState) : SupState :=
  if st.exited then { st with reaped := true }
  else { st with sent := st.sent ++ [s] }

/-- `ProcessManager.cancel`: `terminate()` then `wait(timeout_terminate)`,
returning if the wait succeeds; else `kill()` then `wait(timeout_kill)`,
returning if that wait succeeds; else `os.killpg` on the group and
`attempts` rounds of `pkill -f`.  `diesOnTerm` / `diesOnKill` say whether a
still-running process stops within the respective wait deadline; a
successful `wait` collects the exit status. -/
def cancel (diesOnTerm diesOnKill : Bool) (attempts : Nat) (st : SupState) :
    SupState :=
  let st1 := send_signal Sig.sigterm st
  let st2 := if diesOnTerm && !st1.exited then { st1 with exited := true } else st1
  if st2.exited then { st2 with reaped := true }
  else
    let st3 := send_signal Sig.sigkill st2
    let st4 := if diesOnKill && !st3.exited then { st3 with exited := true } else st3
    if st4.exited then { st4 with reaped := true }
    else
      { st4 with sent :=
          (st4.sent ++ [Sig.groupkill]) ++ List.replicate attempts Sig.pkillRun }

/-- C9 (confirmed): cancelling a supervised process that has already
stopped delivers no signal at all — `Popen.send_signal` polls first and
skips the `os.kill` once `returncode` is set, and the first `wait` then
returns within its deadline so neither `kill`, `killpg` nor `pkill` is
reached.  The call returns normally having merely collected the exit
status, and cancellation is idempotent: a second `cancel` changes
nothing. -/
theorem cancel_stopped_noop (t k : Bool) (a : Nat) (st : SupState)
    (h : st.exited = true) :
    (cancel t k a st).sent = st.sent ∧
    cancel t k a st = { st with reaped := true } ∧
    cancel t k a (cancel t k a st) = cancel t k a st := by
  obtain ⟨e, r, s⟩ := st
  cases e
  · exact absurd h (by simp)
  · refine ⟨?_, ?_, ?_⟩ <;> simp [cancel, send_signal]

/-- Witness for `cancel_stopped_noop` at a concrete state: an exited,
not-yet-reaped process that was sent one SIGTERM while alive. -/
theorem cancel_stopped_noop_witness :
    (cancel false false 3 ⟨true, false, [Sig.sigterm]⟩).sent = [Sig.sigterm] ∧
    cancel false false 3 ⟨true, false, [Sig.sigterm]⟩ =
      ⟨true, true, [Sig.sigterm]⟩ ∧
    cancel false false 3 (cancel false false 3 ⟨true, false, [Sig.sigterm]⟩) =
      cancel false false 3 ⟨true, false, [Sig.sigterm]⟩ :=
  cancel_stopped_noop false false 3 ⟨true, false, [Sig.sigterm]⟩ rfl

/-! ## C1 theorems -/

/-- C1 (counterexample): for the path
`/u/.steam/userdata/1/config/shortcuts.vdf` — filename `shortcuts.vdf` lying
under the protected directory segment `config` — `save` does **not** fail: the
protected-file check is bypassed by the `shortcuts.vdf` exception, the call
succeeds, and the target file's bytes are modified.  This refutes the claim
that such a save must raise a distinguishable error before any bytes are
written. -/
theorem save_shortcuts_under_protected_dir_writes :
    is_protected_file (chars "/u/.steam/userdata/1/config/shortcuts.vdf") = false ∧
    containsSub (chars "/config/") (chars "/u/.steam/userdata/1/config/shortcuts.vdf") = true ∧
    (save 7 [(chars "/u/.steam/userdata/1/config/shortcuts.vdf", [0])]
        (chars "/u/.steam/userdata/1/config/shortcuts.vdf") [1, 2]).1 = .okTrue ∧
    (save 7 [(chars "/u/.steam/userdata/1/config/shortcuts.vdf", [0])]
        (chars "/u/.steam/userdata/1/config/shortcuts.vdf") [1, 2]).2.get
        (chars "/u/.steam/userdata/1/config/shortcuts.vdf") = some [1, 2] := by
  refine ⟨by decide, by decide, ?_, ?_⟩ <;> decide

/-- C1 (amended): `save` fails with a distinguishable error — before touching
the file system at all — exactly when the target's basename is not the single
permitted name `shortcuts.vdf`; the error distinguishes the protected-pattern /
protected-directory case from the plain wrong-name case.  When the basename is
`shortcuts.vdf` the save succeeds and writes, **even when the path lies under a
protected directory segment** (the `shortcuts.vdf` exception overrides the
directory checks). -/
theorem save_protection_policy (ts : Nat) (fs : FS) (path : List Char) (ser : List Nat) :
    (basename path ≠ chars "shortcuts.vdf" →
      (save ts fs path ser).1 =
        (if is_protected_file path then .errProtected else .errNotPermitted) ∧
      (save ts fs path ser).2 = fs) ∧
    (basename path = chars "shortcuts.vdf" →
      (save ts fs path ser).1 = .okTrue ∧
      (save ts fs path ser).2.get path = some ser) := by
  constructor
  · intro h
    by_cases hp : is_protected_file path = true
    · simp [save, hp]
    · simp at hp
      simp [save, hp, h]
  · intro h
    have hp : is_protected_file path = false := by
      unfold is_protected_file
      simp [h]
    constructor
    · unfold save
      simp [hp, h]
      cases fs.get path <;> simp [h]
    · unfold save
      simp [hp, h]
      cases fs.get path <;> simp [h, FS.get, FS.set, List.find?]

/-- Witness for `save_protection_policy` at concrete inputs: the wrong-name
branch at `/tmp/config.vdf` and the permitted-name branch at
`/u/config/shortcuts.vdf`. -/
theorem save_protection_policy_witness :
    ((save 3 [] (chars "/tmp/config.vdf") [9]).1 = .errProtected ∧
      (save 3 [] (chars "/tmp/config.vdf") [9]).2 = []) ∧
    ((save 3 [] (chars "/u/config/shortcuts.vdf") [9]).1 = .okTrue ∧
      (save 3 [] (chars "/u/config/shortcuts.vdf") [9]).2.get
        (chars "/u/config/shortcuts.vdf") = some [9]) := by
  constructor
  · have h := (save_protection_policy 3 [] (chars "/tmp/config.vdf") [9]).1 (by decide)
    refine ⟨?_, h.2⟩
    rw [h.1]
    decide
  · exact (save_protection_policy 3 [] (chars "/u/config/shortcuts.vdf") [9]).2 (by decide)

end Jackify
